import Mathlib

/-!
Verification of the shredstream client's binary entry decoder and the
surrounding streaming helpers (`shredstream_client.py`).

The decoder operates over an untrusted byte buffer (`memoryview`) with an
explicit cursor.  We embed the buffer as a `List Nat` of byte values and the
cursor as a `Nat` offset; the Python reader functions raise `ValueError`, which
we embed as `Except String`.  The varint loop walks the buffer one byte at a
time; since at each step it only inspects the bytes at positions `≥ offset`,
we embed it as structural recursion over the remaining suffix
`buffer.drop offset` while threading the absolute offset for the result.
-/

namespace Shredstream

/-- One decoded ledger entry, mirroring `PythonEntry` in the source:
`num_hashes` (decoded from 8 little-endian bytes), `hash` (32 raw bytes) and
the transactions (opaque byte records handed to the collaborator decoder,
kept here as their raw bytes). -/
structure PythonEntry where
  num_hashes : Nat
  hash : List Nat
  transactions : List (List Nat)
deriving DecidableEq

/-- The loop body of `_read_varint`: `value |= (byte & 0x7F) << shift`,
stop when the continuation bit is clear, fail when `shift` would reach 64,
fail when the buffer is exhausted.  The first argument is the remaining
suffix of the buffer (`buffer.drop offset`); `offset` tracks the absolute
cursor for the returned position. -/
def readVarintAux : List Nat → Nat → Nat → Nat → Except String (Nat × Nat)
  | [], _, _, _ => .error "Unexpected end of buffer while decoding varint"
  | byte :: rest, offset, value, shift =>
    let value' := value ||| ((byte &&& 0x7F) <<< shift)
    if byte &&& 0x80 == 0 then
      .ok (value', offset + 1)
    else if shift + 7 ≥ 64 then
      .error "Varint is too long"
    else
      readVarintAux rest (offset + 1) value' (shift + 7)

/-- `_read_varint(buffer, offset)`: LEB128-style varint decoding starting at
`offset`, returning the value and the cursor one past the varint. -/
def read_varint (buffer : List Nat) (offset : Nat) : Except String (Nat × Nat) :=
  readVarintAux (buffer.drop offset) offset 0 0

/-- `_slice_bytes(buffer, offset, length)`: bounds-checked slice
`buffer[offset:offset+length]`. -/
def slice_bytes (buffer : List Nat) (offset length : Nat) : Except String (List Nat) :=
  if offset + length > buffer.length then
    .error "Unexpected end of buffer while decoding bytes"
  else
    .ok ((buffer.drop offset).take length)

/-- `int.from_bytes(bs, "little")` on a list of byte values. -/
def intFromBytesLE : List Nat → Nat
  | [] => 0
  | b :: rest => b + 256 * intFromBytesLE rest

/-- `_read_u64(buffer, offset)`: 8 bytes, little-endian. -/
def read_u64 (buffer : List Nat) (offset : Nat) : Except String (Nat × Nat) := do
  let bs ← slice_bytes buffer offset 8
  pure (intFromBytesLE bs, offset + 8)

/-- `_read_bytes(buffer, offset, length)`: a bounds-checked slice together
with the advanced cursor. -/
def read_bytes (buffer : List Nat) (offset length : Nat) :
    Except String (List Nat × Nat) := do
  let bs ← slice_bytes buffer offset length
  pure (bs, offset + length)

/-- The inner transaction loop of `PythonEntries.from_bytes`: read `count`
length-prefixed transaction records starting at `offset`. -/
def decodeTransactions (buffer : List Nat) : Nat → Nat → Except String (List (List Nat) × Nat)
  | _offset, 0 => pure ([], _offset)
  | _offset, Nat.succ k => do
    let (len, o1) ← read_varint buffer _offset
    let (txBytes, o2) ← read_bytes buffer o1 len
    let (rest, o3) ← decodeTransactions buffer o2 k
    pure (txBytes :: rest, o3)

/-- The per-entry body of `PythonEntries.from_bytes`: `num_hashes` (u64),
32-byte hash, transaction-count varint, then the transactions. -/
def decodeEntryAt (buffer : List Nat) (offset : Nat) : Except String (PythonEntry × Nat) := do
  let (numHashes, o1) ← read_u64 buffer offset
  let (hashBytes, o2) ← read_bytes buffer o1 32
  let (txCount, o3) ← read_varint buffer o2
  let (transactions, o4) ← decodeTransactions buffer o3 txCount
  pure (⟨numHashes, hashBytes, transactions⟩, o4)

/-- The outer entry loop of `PythonEntries.from_bytes`: read `count` entries
starting at `offset`. -/
def decodeEntriesLoop (buffer : List Nat) : Nat → Nat → Except String (List PythonEntry × Nat)
  | _offset, 0 => pure ([], _offset)
  | _offset, Nat.succ k => do
    let (entry, o1) ← decodeEntryAt buffer _offset
    let (rest, o2) ← decodeEntriesLoop buffer o1 k
    pure (entry :: rest, o2)

/-- `PythonEntries.from_bytes(data)`: entry-count varint, that many entries,
then the exact-consumption ("trailing bytes") check. -/
def from_bytes (data : List Nat) : Except String (List PythonEntry) := do
  let (total, o1) ← read_varint data 0
  let (entries, o2) ← decodeEntriesLoop data o1 total
  if o2 ≠ data.length then
    throw "Unexpected trailing bytes when decoding ledger entries"
  else
    pure entries

/-- The mathematical value carried by a list of varint bytes: each byte
contributes its low 7 bits, least-significant group first. -/
def varintValue : List Nat → Nat
  | [] => 0
  | b :: rest => (b &&& 0x7F) + 128 * varintValue rest

/-- A byte list is an in-bounds contiguous slice of `data`. -/
def SliceOf (data tx : List Nat) : Prop :=
  ∃ a l, a + l ≤ data.length ∧ tx = (data.drop a).take l

/-- Modelled from the spec: the varint layout of §4.1 read in reverse —
emit the low 7 bits of the value per byte, least-significant group first,
setting the high bit on every byte except the last. -/
def encodeVarint (n : Nat) : List Nat :=
  if n < 128 then [n] else (n % 128 + 128) :: encodeVarint (n / 128)
termination_by n
decreasing_by exact Nat.div_lt_self (by omega) (by omega)

/-- Modelled from the spec: `w` little-endian bytes of `n` (the inverse of
`int.from_bytes(·, "little")` at a fixed width). -/
def natToLeBytes : Nat → Nat → List Nat
  | 0, _ => []
  | w + 1, n => n % 256 :: natToLeBytes w (n / 256)

/-- Modelled from the spec: a transaction record is its length varint
followed by its raw bytes. -/
def encodeTransaction (tx : List Nat) : List Nat :=
  encodeVarint tx.length ++ tx

/-- Modelled from the spec: one entry is 8 bytes of `num_hashes`
(little-endian), the 32 hash bytes, the transaction-count varint, then the
encoded transactions in order. -/
def encodeEntry (e : PythonEntry) : List Nat :=
  natToLeBytes 8 e.num_hashes ++ e.hash ++ encodeVarint e.transactions.length ++
    (e.transactions.map encodeTransaction).flatten

/-- Modelled from the spec: a sequence of entries is the entry-count varint
followed by the encoded entries in order. -/
def encodeEntries (es : List PythonEntry) : List Nat :=
  encodeVarint es.length ++ (es.map encodeEntry).flatten

/-- A well-formed transaction record: its length fits in a u64 and its
bytes are byte values. -/
def ValidTx (tx : List Nat) : Prop :=
  tx.length < 2 ^ 64 ∧ ∀ b ∈ tx, b < 256

/-- A well-formed in-memory entry per the spec's data model: `num_hashes`
is a u64, the hash is exactly 32 byte values, and the transaction count and
records are well-formed. -/
def ValidEntry (e : PythonEntry) : Prop :=
  e.num_hashes < 2 ^ 64 ∧ e.hash.length = 32 ∧ (∀ b ∈ e.hash, b < 256) ∧
    e.transactions.length < 2 ^ 64 ∧ ∀ tx ∈ e.transactions, ValidTx tx

/-- A well-formed in-memory entry sequence. -/
def ValidEntries (es : List PythonEntry) : Prop :=
  es.length < 2 ^ 64 ∧ ∀ e ∈ es, ValidEntry e

/-- `_should_print_transaction(transaction, filter_accounts)`: `if not
filter_accounts: return True` (None or empty set), otherwise `any(key in
filter_accounts for key in account_keys)`.  Public keys are abstracted as
`Nat`; the transaction's static account list is passed as the key list
obtained from the collaborator (`static_account_keys()`/`account_keys`). -/
def should_print_transaction (transaction_account_keys : List Nat)
    (filter_accounts : Option (List Nat)) : Bool :=
  match filter_accounts with
  | none => true
  | some keys =>
    if keys.isEmpty then true
    else transaction_account_keys.any (fun key => keys.contains key)

/-- One received stream message, mirroring the `slot_entry` protobuf
message: the diagnostic slot identifier and the raw entries payload. -/
structure SlotEntry where
  slot : Nat
  entries : List Nat
deriving DecidableEq

/-- An observable action of the receive loop: a decode-failure report
(carrying the failing message's slot and the error text) or an emitted
transaction. -/
inductive LoopEvent where
  | decodeError (slot : Nat) (msg : String)
  | emit (tx : List Nat)
deriving DecidableEq

/-- The body of the `async for` loop in `stream_entries` for one message:
decode the payload; on failure report the error with the message's slot and
skip the message; on success emit every transaction that passes the account
filter, in entry order then transaction order.  `keysOf` abstracts the
collaborator that exposes a decoded transaction's account keys. -/
def handleMessage (keysOf : List Nat → List Nat)
    (filter_accounts : Option (List Nat)) (m : SlotEntry) : List LoopEvent :=
  match from_bytes m.entries with
  | .error e => [.decodeError m.slot e]
  | .ok es =>
    (es.map (fun entry =>
      (entry.transactions.filter
        (fun tx => should_print_transaction (keysOf tx) filter_accounts)).map
        .emit)).flatten

/-- The receive loop of `stream_entries` over a finite stream of messages:
every message is processed in order, each independently of the others. -/
def stream_entries_loop (keysOf : List Nat → List Nat)
    (filter_accounts : Option (List Nat)) (msgs : List SlotEntry) : List LoopEvent :=
  (msgs.map (handleMessage keysOf filter_accounts)).flatten

/-- Opaque stand-in for the TLS credentials object returned by
`grpc.ssl_channel_credentials()`. -/
inductive ChannelCredentials where
  | ssl
deriving DecidableEq

/-- Locate the first occurrence of the URI scheme separator `://` in a
character list, returning the characters before and after it. -/
def splitSchemeSep : List Char → Option (List Char × List Char)
  | [] => none
  | c :: rest =>
    if c = ':' ∧ rest.take 2 = ['/', '/'] then some ([], rest.drop 2)
    else (splitSchemeSep rest).map (fun p => (c :: p.1, p.2))

/-- Modelled from the spec: the stdlib `urlparse` collaborator accepts a
scheme only when it is a letter followed by letters, digits, `+`, `-` or
`.`; otherwise the whole input parses as a path and exposes no host. -/
def isValidScheme : List Char → Bool
  | [] => false
  | c :: rest =>
    c.isAlpha && rest.all (fun d => d.isAlphanum || d == '+' || d == '-' || d == '.')

/-- Modelled from the spec: the stdlib `urlparse` authority component —
what follows `://` up to the first `/`, `?` or `#`. -/
def authorityOf (rest : List Char) : List Char :=
  rest.takeWhile (fun c => !(c == '/' || c == '?' || c == '#'))

/-- Modelled from the spec: the stdlib `urlparse` host-port part of the
authority — what follows the last `@` (userinfo is discarded). -/
def afterLastAt (auth : List Char) : List Char :=
  auth.foldl (fun acc c => if c = '@' then [] else acc ++ [c]) []

/-- Modelled from the spec: the stdlib `urlparse` host/port split — the
host-port is cut at its last `:`; without a colon there is no port
component. -/
def splitLastColon (hp : List Char) : List Char × Option (List Char) :=
  if hp.contains ':' then
    ((hp.take (hp.length - ((hp.reverse.takeWhile (fun c => !(c == ':'))).reverse).length - 1)),
      some ((hp.reverse.takeWhile (fun c => !(c == ':'))).reverse))
  else (hp, none)

/-- ASCII decimal digit test on code points. -/
def isAsciiDigit (c : Char) : Bool :=
  decide (48 ≤ c.toNat) && decide (c.toNat ≤ 57)

/-- Numeric value of a decimal digit string. -/
def digitsVal (cs : List Char) : Nat :=
  cs.foldl (fun a c => 10 * a + (c.toNat - 48)) 0

/-- Modelled from the spec: the stdlib `urlparse` `.port` accessor — an
absent or empty port component is `None`, a digit string is its numeric
value, and anything else raises a `ValueError`. -/
def parsePort : Option (List Char) → Except String (Option Nat)
  | none => .ok none
  | some [] => .ok none
  | some cs =>
    if cs.all isAsciiDigit then .ok (some (digitsVal cs))
    else .error "Port could not be cast to integer value"

/-- `_normalize_endpoint(raw_endpoint)`: a string with no `://` passes
through unchanged with no credentials; otherwise the URI is parsed
(scheme, authority host, optional port), a missing host raises the host
`ValueError`, a scheme other than `http`/`https` raises the scheme
`ValueError`, the port defaults to 443 for `https` and 80 for `http`, the
target is `f"{hostname}:{port}"`, and `https` selects TLS channel
credentials.  The `urlparse` collaborator is modelled by the helper
definitions above for `scheme://[userinfo@]host[:port][/path…]` URIs. -/
def normalize_endpoint (raw : String) :
    Except String (String × Option ChannelCredentials) :=
  match splitSchemeSep raw.toList with
  | none => .ok (raw, none)
  | some (schemeCs, restCs) =>
    let valid := isValidScheme schemeCs
    let scheme := if valid then schemeCs.map Char.toLower else []
    let auth := if valid then authorityOf restCs else []
    let hp := splitLastColon (afterLastAt auth)
    let hostname := hp.1.map Char.toLower
    if hostname.isEmpty then
      .error "L'URI fornito non contiene un host valido. Esempio: https://example.com:443"
    else if ¬ (scheme = "http".toList ∨ scheme = "https".toList) then
      .error "Schema URI non supportato. Usa http:// o https:// oppure specifica direttamente host:porta."
    else
      match parsePort hp.2 with
      | .error e => .error e
      | .ok portOpt =>
        let port := portOpt.getD (if scheme = "https".toList then 443 else 80)
        let target := String.mk (hostname ++ ':' :: (toString port).toList)
        if scheme = "https".toList then .ok (target, some .ssl)
        else .ok (target, none)

/-- Characters we allow in the host of the well-formed URIs our endpoint
theorems quantify over: lowercase ASCII letters, digits, `.` and `-`. -/
def goodHostChar (c : Char) : Bool :=
  (decide (97 ≤ c.toNat) && decide (c.toNat ≤ 122)) ||
    (decide (48 ≤ c.toNat) && decide (c.toNat ≤ 57)) || c == '.' || c == '-'

/-- A well-formed host: non-empty and made of `goodHostChar` characters. -/
def GoodHost (host : List Char) : Prop :=
  host ≠ [] ∧ host.all goodHostChar = true

/-- The character range facts that let a character pass the authority
test and avoid `@`: the code point is none of `/`, `?`, `#`, `@`. -/
def PlainChar (c : Char) : Prop :=
  c.toNat ≠ 47 ∧ c.toNat ≠ 63 ∧ c.toNat ≠ 35 ∧ c.toNat ≠ 64

lemma or_shiftLeft_eq_add {v m s : Nat} (hv : v < 2 ^ s) :
    v ||| (m <<< s) = v + 2 ^ s * m := by
  rw [Nat.lor_comm, Nat.shiftLeft_eq, Nat.mul_comm m (2 ^ s),
    ← Nat.mul_add_lt_is_or hv m, Nat.add_comm]

lemma readVarintAux_too_long (rem : List Nat) :
    ∀ (ext : List Nat) (o v s : Nat),
      (∀ b ∈ rem, (b &&& 0x80 == 0) = false) → s < 64 → 64 ≤ s + 7 * rem.length →
      readVarintAux (rem ++ ext) o v s = .error "Varint is too long" := by
  induction rem with
  | nil => intro ext o v s _ hs hlen; simp at hlen; omega
  | cons b rest ih =>
    intro ext o v s hcont hs hlen
    have hb : (b &&& 0x80 == 0) = false := hcont b (by simp)
    simp only [List.cons_append, readVarintAux, hb, Bool.false_eq_true, if_false]
    by_cases h64 : s + 7 ≥ 64
    · simp [h64]
    · simp only [h64, if_false]
      exact ih ext (o + 1) _ (s + 7) (fun x hx => hcont x (by simp [hx]))
        (by omega) (by simp at hlen ⊢; omega)

lemma readVarintAux_exhausted (rem : List Nat) :
    ∀ (o v s : Nat),
      (∀ b ∈ rem, (b &&& 0x80 == 0) = false) → s + 7 * rem.length < 64 →
      readVarintAux rem o v s = .error "Unexpected end of buffer while decoding varint" := by
  induction rem with
  | nil => intro o v s _ _; rfl
  | cons b rest ih =>
    intro o v s hcont hlen
    have hb : (b &&& 0x80 == 0) = false := hcont b (by simp)
    simp only [readVarintAux, hb, Bool.false_eq_true, if_false]
    have h64 : ¬ (s + 7 ≥ 64) := by simp at hlen ⊢; omega
    simp only [h64, if_false]
    exact ih (o + 1) _ (s + 7) (fun x hx => hcont x (by simp [hx]))
      (by simp at hlen ⊢; omega)

lemma byte_and_7f_lt (b : Nat) : b &&& 0x7F < 128 := by
  have : b &&& 0x7F = b % 128 := Nat.and_pow_two_sub_one_eq_mod b 7
  omega

lemma readVarintAux_exact (rem : List Nat) :
    ∀ (o v s : Nat) (r : Nat × Nat), v < 2 ^ s →
      readVarintAux rem o v s = .ok r →
      r.1 = v + 2 ^ s * varintValue (rem.take (r.2 - o)) ∧ o < r.2 := by
  induction rem with
  | nil => intro o v s r _ h; exact absurd h (by simp [readVarintAux])
  | cons b rest ih =>
    intro o v s r hv h
    have hval : v ||| ((b &&& 0x7F) <<< s) = v + 2 ^ s * (b &&& 0x7F) :=
      or_shiftLeft_eq_add hv
    by_cases hb : (b &&& 0x80 == 0) = true
    · simp only [readVarintAux, hb, if_true] at h
      obtain rfl : (v ||| ((b &&& 0x7F) <<< s), o + 1) = r := by
        simpa using h
      refine ⟨?_, by omega⟩
      simp [varintValue, hval]
    · simp only [readVarintAux, hb, Bool.false_eq_true, if_false] at h
      by_cases h64 : s + 7 ≥ 64
      · simp [h64] at h
      · simp only [h64, if_false] at h
        have hv' : v ||| ((b &&& 0x7F) <<< s) < 2 ^ (s + 7) := by
          have h7f : b &&& 0x7F < 128 := byte_and_7f_lt b
          have hm : 2 ^ s * (b &&& 0x7F) ≤ 2 ^ s * 127 :=
            Nat.mul_le_mul_left _ (by omega)
          have hpow : 2 ^ (s + 7) = 2 ^ s * 128 := by rw [pow_add]; norm_num
          rw [hval, hpow]
          omega
        obtain ⟨hr1, hr2⟩ := ih (o + 1) _ (s + 7) r hv' h
        have hstep : r.2 - o = (r.2 - (o + 1)) + 1 := by omega
        refine ⟨?_, by omega⟩
        rw [hstep, List.take_succ_cons, varintValue, hr1, hval]
        have : 2 ^ (s + 7) = 2 ^ s * 128 := by rw [pow_add]; norm_num
        rw [this]; ring

/-- **C2 (amended).** Behaviour of `_read_varint` at its limits:
(a) if the ten bytes from `offset` onward all carry the continuation bit,
decoding fails with "Varint is too long" (the accumulated shift reaches 64);
(b) if the buffer ends before a terminating byte (and fewer than ten
continuation bytes were seen), decoding fails with the unexpected-end error;
(c) a successful decode returns the exact mathematical value of the consumed
7-bit groups — never wrapped or truncated — though a 10-byte varint may
return a value of 2^64 or more. -/
theorem c2_varint_limits :
    (∀ (buffer : List Nat) (offset : Nat),
      10 ≤ (buffer.drop offset).length →
      (∀ b ∈ (buffer.drop offset).take 10, (b &&& 0x80 == 0) = false) →
      read_varint buffer offset = .error "Varint is too long") ∧
    (∀ (buffer : List Nat) (offset : Nat),
      (buffer.drop offset).length ≤ 9 →
      (∀ b ∈ buffer.drop offset, (b &&& 0x80 == 0) = false) →
      read_varint buffer offset =
        .error "Unexpected end of buffer while decoding varint") ∧
    (∀ (buffer : List Nat) (offset : Nat) (v o' : Nat),
      read_varint buffer offset = .ok (v, o') →
      v = varintValue ((buffer.drop offset).take (o' - offset))) := by
  refine ⟨?_, ?_, ?_⟩
  · intro buffer offset hlen hcont
    have hsplit : buffer.drop offset =
        (buffer.drop offset).take 10 ++ (buffer.drop offset).drop 10 :=
      (List.take_append_drop 10 _).symm
    rw [read_varint, hsplit]
    exact readVarintAux_too_long _ _ offset 0 0 hcont (by omega)
      (by rw [List.length_take]; omega)
  · intro buffer offset hlen hcont
    exact readVarintAux_exhausted _ offset 0 0 hcont (by omega)
  · intro buffer offset v o' h
    have := readVarintAux_exact (buffer.drop offset) offset 0 0 (v, o')
      (by norm_num) h
    simpa using this.1

/-- Witness for `c2_varint_limits` at concrete inputs: ten continuation
bytes overflow, a single continuation byte exhausts the buffer, and the
one-byte varint `[0x05]` decodes exactly to 5. -/
theorem c2_varint_limits_witness :
    read_varint [0x80, 0x80, 0x80, 0x80, 0x80, 0x80, 0x80, 0x80, 0x80, 0x80] 0 =
      .error "Varint is too long" ∧
    read_varint [0x80] 0 = .error "Unexpected end of buffer while decoding varint" ∧
    (5 : Nat) = varintValue (([0x05] : List Nat).drop 0 |>.take (1 - 0)) := by
  refine ⟨?_, ?_, ?_⟩
  · exact c2_varint_limits.1 [0x80, 0x80, 0x80, 0x80, 0x80, 0x80, 0x80, 0x80, 0x80, 0x80]
      0 (by decide) (by decide)
  · exact c2_varint_limits.2.1 [0x80] 0 (by decide) (by decide)
  · exact c2_varint_limits.2.2 [0x05] 0 5 1 rfl

/-- **C2 counterexample.** The ten-byte varint `[0x80 ×9, 0x02]` needs a
65th bit of value (it denotes exactly 2^64), yet `_read_varint` accepts it:
the shift of its final byte is 63, which never trips the `shift >= 64`
check, so the decoded value reaches past the u64 range with no overflow
error. -/
theorem c2_counterexample :
    read_varint [0x80, 0x80, 0x80, 0x80, 0x80, 0x80, 0x80, 0x80, 0x80, 0x02] 0 =
      .ok (18446744073709551616, 10) ∧
    (18446744073709551616 : Nat) = 2 ^ 64 := by
  exact ⟨rfl, by norm_num⟩

lemma readVarintAux_ok_bounds (rem : List Nat) :
    ∀ (o v s : Nat) (r : Nat × Nat), readVarintAux rem o v s = .ok r →
      o < r.2 ∧ r.2 ≤ o + rem.length := by
  induction rem with
  | nil => intro o v s r h; exact absurd h (by simp [readVarintAux])
  | cons b rest ih =>
    intro o v s r h
    by_cases hb : (b &&& 0x80 == 0) = true
    · simp only [readVarintAux, hb, if_true] at h
      obtain rfl : (_, o + 1) = r := by simpa using h
      simp only [List.length_cons]; omega
    · simp only [readVarintAux, hb, Bool.false_eq_true, if_false] at h
      by_cases h64 : s + 7 ≥ 64
      · simp [h64] at h
      · simp only [h64, if_false] at h
        have := ih (o + 1) _ (s + 7) r h
        simp only [List.length_cons]; omega

lemma read_varint_ok_bounds {buffer : List Nat} {o v o' : Nat}
    (h : read_varint buffer o = .ok (v, o')) : o < o' ∧ o' ≤ buffer.length := by
  have := readVarintAux_ok_bounds (buffer.drop o) o 0 0 (v, o') h
  rw [List.length_drop] at this
  omega

lemma except_bind_ok {α β : Type} (a : α) (f : α → Except String β) :
    (Except.ok a >>= f) = f a := rfl

lemma except_bind_error {α β : Type} (m : String) (f : α → Except String β) :
    ((Except.error m : Except String α) >>= f) = Except.error m := rfl

lemma slice_bytes_ok_iff {buffer : List Nat} {o l : Nat} {bs : List Nat} :
    slice_bytes buffer o l = .ok bs ↔
      o + l ≤ buffer.length ∧ bs = (buffer.drop o).take l := by
  unfold slice_bytes
  split
  · next hgt =>
    constructor
    · intro h; exact Except.noConfusion h
    · intro h; exact absurd h.1 (by omega)
  · next hle =>
    rw [not_lt] at hle
    simp only [Except.ok.injEq]
    constructor
    · intro h; exact ⟨hle, h.symm⟩
    · intro h; exact h.2.symm

lemma read_u64_ok_iff {buffer : List Nat} {o : Nat} {r : Nat × Nat} :
    read_u64 buffer o = .ok r ↔
      o + 8 ≤ buffer.length ∧
      r = (intFromBytesLE ((buffer.drop o).take 8), o + 8) := by
  rw [read_u64]
  rcases hs : slice_bytes buffer o 8 with m | bs
  · rw [except_bind_error]
    constructor
    · intro h; exact Except.noConfusion h
    · intro ⟨hle, _⟩
      have hok : slice_bytes buffer o 8 = .ok ((buffer.drop o).take 8) :=
        slice_bytes_ok_iff.mpr ⟨hle, rfl⟩
      rw [hs] at hok; exact Except.noConfusion hok
  · obtain ⟨hle, rfl⟩ := slice_bytes_ok_iff.mp hs
    rw [except_bind_ok]
    show Except.ok _ = Except.ok r ↔ _
    simp only [Except.ok.injEq]
    constructor
    · intro h; exact ⟨hle, h.symm⟩
    · intro h; exact h.2.symm

lemma read_bytes_ok_iff {buffer : List Nat} {o l : Nat} {r : List Nat × Nat} :
    read_bytes buffer o l = .ok r ↔
      o + l ≤ buffer.length ∧ r = ((buffer.drop o).take l, o + l) := by
  rw [read_bytes]
  rcases hs : slice_bytes buffer o l with m | bs
  · rw [except_bind_error]
    constructor
    · intro h; exact Except.noConfusion h
    · intro ⟨hle, _⟩
      have hok : slice_bytes buffer o l = .ok ((buffer.drop o).take l) :=
        slice_bytes_ok_iff.mpr ⟨hle, rfl⟩
      rw [hs] at hok; exact Except.noConfusion hok
  · obtain ⟨hle, rfl⟩ := slice_bytes_ok_iff.mp hs
    rw [except_bind_ok]
    show Except.ok _ = Except.ok r ↔ _
    simp only [Except.ok.injEq]
    constructor
    · intro h; exact ⟨hle, h.symm⟩
    · intro h; exact h.2.symm

/-- **C8.** Cursor safety of the primitive reads: a successful `_read_varint`
advances the cursor but never past the buffer end; `_read_u64` and
`_read_bytes` succeed only when `offset + size ≤ buffer length` and land
exactly at `offset + size`; a varint read starting at or past the end fails
immediately; and any fixed-size read that would cross the end fails
immediately with the unexpected-end error, never truncating or zero-filling. -/
theorem c8_cursor_bounds :
    (∀ (buffer : List Nat) (o v o' : Nat),
      read_varint buffer o = .ok (v, o') → o < o' ∧ o' ≤ buffer.length) ∧
    (∀ (buffer : List Nat) (o v o' : Nat),
      read_u64 buffer o = .ok (v, o') → o' = o + 8 ∧ o' ≤ buffer.length) ∧
    (∀ (buffer : List Nat) (o l : Nat) (bs : List Nat) (o' : Nat),
      read_bytes buffer o l = .ok (bs, o') → o' = o + l ∧ o' ≤ buffer.length) ∧
    (∀ (buffer : List Nat) (o : Nat), buffer.length ≤ o →
      read_varint buffer o = .error "Unexpected end of buffer while decoding varint") ∧
    (∀ (buffer : List Nat) (o l : Nat), buffer.length < o + l →
      slice_bytes buffer o l = .error "Unexpected end of buffer while decoding bytes") := by
  refine ⟨?_, ?_, ?_, ?_, ?_⟩
  · intro buffer o v o' h; exact read_varint_ok_bounds h
  · intro buffer o v o' h
    obtain ⟨hle, hr⟩ := read_u64_ok_iff.mp h
    cases hr; exact ⟨rfl, hle⟩
  · intro buffer o l bs o' h
    obtain ⟨hle, hr⟩ := read_bytes_ok_iff.mp h
    cases hr; exact ⟨rfl, hle⟩
  · intro buffer o hle
    rw [read_varint, List.drop_eq_nil_of_le hle]; rfl
  · intro buffer o l hlt
    rw [slice_bytes, if_pos hlt]

/-- Witness for `c8_cursor_bounds`: each clause applied at a small concrete
buffer. -/
theorem c8_cursor_bounds_witness :
    ((0 : Nat) < 1 ∧ (1 : Nat) ≤ 1) ∧
    ((8 : Nat) = 0 + 8 ∧ (8 : Nat) ≤ 8) ∧
    ((3 : Nat) = 1 + 2 ∧ (3 : Nat) ≤ 3) ∧
    read_varint [0x00] 1 = .error "Unexpected end of buffer while decoding varint" ∧
    slice_bytes [0x00] 0 2 = .error "Unexpected end of buffer while decoding bytes" := by
  refine ⟨?_, ?_, ?_, ?_, ?_⟩
  · exact c8_cursor_bounds.1 [0x07] 0 7 1 rfl
  · exact c8_cursor_bounds.2.1 [1, 0, 0, 0, 0, 0, 0, 0] 0 1 8 rfl
  · exact c8_cursor_bounds.2.2.1 [9, 9, 9] 1 2 [9, 9] 3 rfl
  · exact c8_cursor_bounds.2.2.2.1 [0x00] 1 (by decide)
  · exact c8_cursor_bounds.2.2.2.2 [0x00] 0 2 (by decide)

lemma except_bind_ok_iff {α β : Type} {x : Except String α} {f : α → Except String β}
    {b : β} : (x >>= f) = .ok b ↔ ∃ a, x = .ok a ∧ f a = .ok b := by
  cases x with
  | error m =>
    rw [except_bind_error]
    simp
  | ok a =>
    rw [except_bind_ok]
    simp

lemma if_ne_throw_ok_iff {α : Type} {c d : Nat} {e : String} {x : α} {b : α} :
    (if c ≠ d then (throw e : Except String α) else pure x) = .ok b ↔
      c = d ∧ x = b := by
  by_cases h : c = d
  · simp [h, pure, Except.pure]
  · simp [h, throw, throwThe, MonadExceptOf.throw]

lemma except_pure_ok_iff {α : Type} {x b : α} :
    (pure x : Except String α) = .ok b ↔ b = x := by
  constructor
  · intro h; cases h; rfl
  · intro h; cases h; rfl

lemma decodeTransactions_succ_ok_iff {buffer : List Nat} {o k : Nat}
    {r : List (List Nat) × Nat} :
    decodeTransactions buffer o (k + 1) = .ok r ↔
      ∃ len o1 tx o2 rest o3,
        read_varint buffer o = .ok (len, o1) ∧
        read_bytes buffer o1 len = .ok (tx, o2) ∧
        decodeTransactions buffer o2 k = .ok (rest, o3) ∧
        r = (tx :: rest, o3) := by
  constructor
  · intro h
    simp only [decodeTransactions] at h
    obtain ⟨⟨len, o1⟩, h1, h⟩ := except_bind_ok_iff.mp h
    obtain ⟨⟨tx, o2⟩, h2, h⟩ := except_bind_ok_iff.mp h
    obtain ⟨⟨rest, o3⟩, h3, h⟩ := except_bind_ok_iff.mp h
    obtain rfl := except_pure_ok_iff.mp h
    exact ⟨len, o1, tx, o2, rest, o3, h1, h2, h3, rfl⟩
  · rintro ⟨len, o1, tx, o2, rest, o3, h1, h2, h3, rfl⟩
    simp only [decodeTransactions]
    rw [h1, except_bind_ok]
    dsimp only
    rw [h2, except_bind_ok]
    dsimp only
    rw [h3, except_bind_ok]
    rfl

lemma decodeEntryAt_ok_iff {buffer : List Nat} {o : Nat} {r : PythonEntry × Nat} :
    decodeEntryAt buffer o = .ok r ↔
      ∃ nh o1 hb o2 tc o3 txs o4,
        read_u64 buffer o = .ok (nh, o1) ∧
        read_bytes buffer o1 32 = .ok (hb, o2) ∧
        read_varint buffer o2 = .ok (tc, o3) ∧
        decodeTransactions buffer o3 tc = .ok (txs, o4) ∧
        r = (⟨nh, hb, txs⟩, o4) := by
  constructor
  · intro h
    simp only [decodeEntryAt] at h
    obtain ⟨⟨nh, o1⟩, h1, h⟩ := except_bind_ok_iff.mp h
    obtain ⟨⟨hb, o2⟩, h2, h⟩ := except_bind_ok_iff.mp h
    obtain ⟨⟨tc, o3⟩, h3, h⟩ := except_bind_ok_iff.mp h
    obtain ⟨⟨txs, o4⟩, h4, h⟩ := except_bind_ok_iff.mp h
    obtain rfl := except_pure_ok_iff.mp h
    exact ⟨nh, o1, hb, o2, tc, o3, txs, o4, h1, h2, h3, h4, rfl⟩
  · rintro ⟨nh, o1, hb, o2, tc, o3, txs, o4, h1, h2, h3, h4, rfl⟩
    simp only [decodeEntryAt]
    rw [h1, except_bind_ok]
    dsimp only
    rw [h2, except_bind_ok]
    dsimp only
    rw [h3, except_bind_ok]
    dsimp only
    rw [h4, except_bind_ok]
    rfl

lemma decodeEntriesLoop_succ_ok_iff {buffer : List Nat} {o k : Nat}
    {r : List PythonEntry × Nat} :
    decodeEntriesLoop buffer o (k + 1) = .ok r ↔
      ∃ e o1 rest o2,
        decodeEntryAt buffer o = .ok (e, o1) ∧
        decodeEntriesLoop buffer o1 k = .ok (rest, o2) ∧
        r = (e :: rest, o2) := by
  constructor
  · intro h
    simp only [decodeEntriesLoop] at h
    obtain ⟨⟨e, o1⟩, h1, h⟩ := except_bind_ok_iff.mp h
    obtain ⟨⟨rest, o2⟩, h2, h⟩ := except_bind_ok_iff.mp h
    obtain rfl := except_pure_ok_iff.mp h
    exact ⟨e, o1, rest, o2, h1, h2, rfl⟩
  · rintro ⟨e, o1, rest, o2, h1, h2, rfl⟩
    simp only [decodeEntriesLoop]
    rw [h1, except_bind_ok]
    dsimp only
    rw [h2, except_bind_ok]
    rfl

lemma from_bytes_ok_iff {data : List Nat} {es : List PythonEntry} :
    from_bytes data = .ok es ↔
      ∃ total o1,
        read_varint data 0 = .ok (total, o1) ∧
        decodeEntriesLoop data o1 total = .ok (es, data.length) := by
  constructor
  · intro h
    simp only [from_bytes] at h
    obtain ⟨⟨total, o1⟩, h1, h⟩ := except_bind_ok_iff.mp h
    obtain ⟨⟨entries, o2⟩, h2, h⟩ := except_bind_ok_iff.mp h
    obtain ⟨rfl, rfl⟩ := if_ne_throw_ok_iff.mp h
    exact ⟨total, o1, h1, h2⟩
  · rintro ⟨total, o1, h1, h2⟩
    simp only [from_bytes]
    rw [h1, except_bind_ok]
    dsimp only
    rw [h2, except_bind_ok]
    dsimp only
    exact if_ne_throw_ok_iff.mpr ⟨rfl, rfl⟩

lemma decodeEntriesLoop_length {buffer : List Nat} :
    ∀ (n o : Nat) (es : List PythonEntry) (o' : Nat),
      decodeEntriesLoop buffer o n = .ok (es, o') → es.length = n := by
  intro n
  induction n with
  | zero =>
    intro o es o' h
    obtain ⟨rfl, _⟩ : es = [] ∧ o = o' := by
      simpa [decodeEntriesLoop, pure, Except.pure, eq_comm] using h
    rfl
  | succ k ih =>
    intro o es o' h
    obtain ⟨e, o1, rest, o2, _, h2, hr⟩ := decodeEntriesLoop_succ_ok_iff.mp h
    cases hr
    simp [ih _ _ _ h2]

lemma decodeTransactions_slices {buffer : List Nat} :
    ∀ (n o : Nat) (txs : List (List Nat)) (o' : Nat),
      decodeTransactions buffer o n = .ok (txs, o') →
      ∀ tx ∈ txs, SliceOf buffer tx := by
  intro n
  induction n with
  | zero =>
    intro o txs o' h
    obtain ⟨rfl, _⟩ : txs = [] ∧ o = o' := by
      simpa [decodeTransactions, pure, Except.pure, eq_comm] using h
    simp
  | succ k ih =>
    intro o txs o' h
    obtain ⟨len, o1, tx, o2, rest, o3, _, h2, h3, hr⟩ :=
      decodeTransactions_succ_ok_iff.mp h
    cases hr
    intro t ht
    rcases List.mem_cons.mp ht with rfl | ht
    · obtain ⟨hle, hr⟩ := read_bytes_ok_iff.mp h2
      obtain ⟨rfl, -⟩ : t = (buffer.drop o1).take len ∧ o2 = o1 + len := by
        exact ⟨congrArg Prod.fst hr, congrArg Prod.snd hr⟩
      exact ⟨o1, len, hle, rfl⟩
    · exact ih _ _ _ h3 t ht

lemma decodeEntryAt_shape {buffer : List Nat} {o : Nat} {e : PythonEntry} {o' : Nat}
    (h : decodeEntryAt buffer o = .ok (e, o')) :
    e.hash.length = 32 ∧ SliceOf buffer e.hash ∧
      ∀ tx ∈ e.transactions, SliceOf buffer tx := by
  obtain ⟨nh, o1, hb, o2, tc, o3, txs, o4, _, h2, _, h4, hr⟩ :=
    decodeEntryAt_ok_iff.mp h
  obtain ⟨he, -⟩ : e = ⟨nh, hb, txs⟩ ∧ o' = o4 :=
    ⟨congrArg Prod.fst hr, congrArg Prod.snd hr⟩
  obtain ⟨hle, hbr⟩ := read_bytes_ok_iff.mp h2
  obtain ⟨rfl, -⟩ : hb = (buffer.drop o1).take 32 ∧ o2 = o1 + 32 :=
    ⟨congrArg Prod.fst hbr, congrArg Prod.snd hbr⟩
  subst he
  refine ⟨?_, ⟨o1, 32, hle, rfl⟩, ?_⟩
  · simp only [List.length_take, List.length_drop]
    omega
  · exact decodeTransactions_slices tc o3 txs o4 h4

lemma decodeEntriesLoop_slices {buffer : List Nat} :
    ∀ (n o : Nat) (es : List PythonEntry) (o' : Nat),
      decodeEntriesLoop buffer o n = .ok (es, o') →
      ∀ e ∈ es, e.hash.length = 32 ∧ SliceOf buffer e.hash ∧
        ∀ tx ∈ e.transactions, SliceOf buffer tx := by
  intro n
  induction n with
  | zero =>
    intro o es o' h
    obtain ⟨rfl, _⟩ : es = [] ∧ o = o' := by
      simpa [decodeEntriesLoop, pure, Except.pure, eq_comm] using h
    simp
  | succ k ih =>
    intro o es o' h
    obtain ⟨e, o1, rest, o2, h1, h2, hr⟩ := decodeEntriesLoop_succ_ok_iff.mp h
    cases hr
    intro x hx
    rcases List.mem_cons.mp hx with rfl | hx
    · exact decodeEntryAt_shape h1
    · exact ih _ _ _ h2 x hx

/-- **C1.** Decoding is total and all-or-nothing: for every byte buffer,
`from_bytes` either returns a sequence of entries whose decoding consumed
the buffer exactly to its end (the entry loop, started after the count
varint, stops exactly at `data.length`, and it returned exactly the declared
number of entries), or it returns an error, the `Except` result carrying no
partial sequence.  Moreover every returned hash is a 32-byte in-bounds slice
of the buffer and every returned transaction is an in-bounds slice of the
buffer — no entry or transaction whose declared length extends past the
buffer is ever returned. -/
theorem c1_decode_total_all_or_nothing :
    ∀ data : List Nat,
      ((∃ es, from_bytes data = .ok es) ∨ (∃ m, from_bytes data = .error m)) ∧
      (∀ es, from_bytes data = .ok es →
        (∃ total o1, read_varint data 0 = .ok (total, o1) ∧ es.length = total ∧
          decodeEntriesLoop data o1 total = .ok (es, data.length)) ∧
        ∀ e ∈ es, e.hash.length = 32 ∧ SliceOf data e.hash ∧
          ∀ tx ∈ e.transactions, SliceOf data tx) := by
  intro data
  constructor
  · rcases h : from_bytes data with m | es
    · exact .inr ⟨m, rfl⟩
    · exact .inl ⟨es, rfl⟩
  · intro es h
    obtain ⟨total, o1, h1, h2⟩ := from_bytes_ok_iff.mp h
    exact ⟨⟨total, o1, h1, decodeEntriesLoop_length total o1 es data.length h2, h2⟩,
      decodeEntriesLoop_slices total o1 es data.length h2⟩

/-- Witness for `c1_decode_total_all_or_nothing`: the 42-byte buffer
`[0x01] ++ (8 zero bytes) ++ (32 zero bytes) ++ [0x00]` decodes to exactly
one entry with `num_hashes = 0`, an all-zero 32-byte hash and no
transactions. -/
theorem c1_decode_total_all_or_nothing_witness :
    from_bytes ([0x01] ++ List.replicate 8 0 ++ List.replicate 32 0 ++ [0x00]) =
      .ok [⟨0, List.replicate 32 0, []⟩] ∧
    ((∃ total o1,
        read_varint ([0x01] ++ List.replicate 8 0 ++ List.replicate 32 0 ++ [0x00]) 0 =
          .ok (total, o1) ∧
        ([⟨0, List.replicate 32 0, []⟩] : List PythonEntry).length = total ∧
        decodeEntriesLoop ([0x01] ++ List.replicate 8 0 ++ List.replicate 32 0 ++ [0x00])
          o1 total =
          .ok ([⟨0, List.replicate 32 0, []⟩],
            ([0x01] ++ List.replicate 8 0 ++ List.replicate 32 0 ++ [0x00]).length)) ∧
      ∀ e ∈ ([⟨0, List.replicate 32 0, []⟩] : List PythonEntry),
        e.hash.length = 32 ∧
        SliceOf ([0x01] ++ List.replicate 8 0 ++ List.replicate 32 0 ++ [0x00]) e.hash ∧
        ∀ tx ∈ e.transactions,
          SliceOf ([0x01] ++ List.replicate 8 0 ++ List.replicate 32 0 ++ [0x00]) tx) := by
  have hdecode :
      from_bytes ([0x01] ++ List.replicate 8 0 ++ List.replicate 32 0 ++ [0x00]) =
        .ok [⟨0, List.replicate 32 0, []⟩] := by
    show from_bytes [0x01, 0, 0, 0, 0, 0, 0, 0, 0,
      0, 0, 0, 0, 0, 0, 0, 0, 0, 0, 0, 0, 0, 0, 0, 0, 0, 0, 0, 0, 0, 0, 0,
      0, 0, 0, 0, 0, 0, 0, 0, 0, 0x00] = .ok [⟨0, List.replicate 32 0, []⟩]
    rfl
  exact ⟨hdecode,
    (c1_decode_total_all_or_nothing
      ([0x01] ++ List.replicate 8 0 ++ List.replicate 32 0 ++ [0x00])).2
      [⟨0, List.replicate 32 0, []⟩] hdecode⟩

lemma readVarintAux_ext {ext : List Nat} (rem : List Nat) :
    ∀ (o v s : Nat) (r : Nat × Nat), readVarintAux rem o v s = .ok r →
      readVarintAux (rem ++ ext) o v s = .ok r := by
  induction rem with
  | nil => intro o v s r h; exact absurd h (by simp [readVarintAux])
  | cons b rest ih =>
    intro o v s r h
    by_cases hb : (b &&& 0x80 == 0) = true
    · simp only [readVarintAux, hb, if_true] at h ⊢
      exact h
    · simp only [readVarintAux, hb, Bool.false_eq_true, if_false] at h ⊢
      by_cases h64 : s + 7 ≥ 64
      · simp [h64] at h
      · simp only [h64, if_false] at h ⊢
        exact ih (o + 1) _ (s + 7) r h

lemma read_varint_ext {buffer ext : List Nat} {o : Nat} {r : Nat × Nat}
    (h : read_varint buffer o = .ok r) : read_varint (buffer ++ ext) o = .ok r := by
  have hb := @read_varint_ok_bounds buffer o r.1 r.2 (by simpa using h)
  rw [read_varint, List.drop_append_of_le_length (by omega)]
  exact readVarintAux_ext (buffer.drop o) o 0 0 r h

lemma read_u64_ext {buffer ext : List Nat} {o : Nat} {r : Nat × Nat}
    (h : read_u64 buffer o = .ok r) : read_u64 (buffer ++ ext) o = .ok r := by
  obtain ⟨hle, rfl⟩ := read_u64_ok_iff.mp h
  refine read_u64_ok_iff.mpr ⟨by simp; omega, ?_⟩
  rw [List.drop_append_of_le_length (by omega),
    List.take_append_of_le_length (by simp; omega)]

lemma read_bytes_ext {buffer ext : List Nat} {o l : Nat} {r : List Nat × Nat}
    (h : read_bytes buffer o l = .ok r) : read_bytes (buffer ++ ext) o l = .ok r := by
  obtain ⟨hle, rfl⟩ := read_bytes_ok_iff.mp h
  refine read_bytes_ok_iff.mpr ⟨by simp; omega, ?_⟩
  rw [List.drop_append_of_le_length (by omega),
    List.take_append_of_le_length (by simp; omega)]

lemma decodeTransactions_ext {buffer ext : List Nat} :
    ∀ (n o : Nat) (r : List (List Nat) × Nat),
      decodeTransactions buffer o n = .ok r →
      decodeTransactions (buffer ++ ext) o n = .ok r := by
  intro n
  induction n with
  | zero => intro o r h; exact h
  | succ k ih =>
    intro o r h
    obtain ⟨len, o1, tx, o2, rest, o3, h1, h2, h3, rfl⟩ :=
      decodeTransactions_succ_ok_iff.mp h
    exact decodeTransactions_succ_ok_iff.mpr
      ⟨len, o1, tx, o2, rest, o3, read_varint_ext h1, read_bytes_ext h2,
        ih o2 _ h3, rfl⟩

lemma decodeEntryAt_ext {buffer ext : List Nat} {o : Nat} {r : PythonEntry × Nat}
    (h : decodeEntryAt buffer o = .ok r) : decodeEntryAt (buffer ++ ext) o = .ok r := by
  obtain ⟨nh, o1, hb, o2, tc, o3, txs, o4, h1, h2, h3, h4, rfl⟩ :=
    decodeEntryAt_ok_iff.mp h
  exact decodeEntryAt_ok_iff.mpr
    ⟨nh, o1, hb, o2, tc, o3, txs, o4, read_u64_ext h1, read_bytes_ext h2,
      read_varint_ext h3, decodeTransactions_ext tc o3 _ h4, rfl⟩

lemma decodeEntriesLoop_ext {buffer ext : List Nat} :
    ∀ (n o : Nat) (r : List PythonEntry × Nat),
      decodeEntriesLoop buffer o n = .ok r →
      decodeEntriesLoop (buffer ++ ext) o n = .ok r := by
  intro n
  induction n with
  | zero => intro o r h; exact h
  | succ k ih =>
    intro o r h
    obtain ⟨e, o1, rest, o2, h1, h2, rfl⟩ := decodeEntriesLoop_succ_ok_iff.mp h
    exact decodeEntriesLoop_succ_ok_iff.mpr
      ⟨e, o1, rest, o2, decodeEntryAt_ext h1, ih o1 _ h2, rfl⟩

lemma from_bytes_trailing_error {data : List Nat} {total o1 : Nat}
    {es : List PythonEntry} {o2 : Nat}
    (h1 : read_varint data 0 = .ok (total, o1))
    (h2 : decodeEntriesLoop data o1 total = .ok (es, o2))
    (hne : o2 ≠ data.length) :
    from_bytes data = .error "Unexpected trailing bytes when decoding ledger entries" := by
  simp only [from_bytes]
  rw [h1, except_bind_ok]
  dsimp only
  rw [h2, except_bind_ok]
  dsimp only
  rw [if_pos hne]
  rfl

/-- **C4.** The trailing-bytes check: whenever the count varint and all
declared entries decode successfully but the final cursor differs from the
buffer length, `from_bytes` fails with the trailing-bytes error; in
particular, appending any extra byte to a buffer that decodes successfully
makes `from_bytes` fail with that same error. -/
theorem c4_trailing_bytes :
    (∀ (data : List Nat) (total o1 : Nat) (es : List PythonEntry) (o2 : Nat),
      read_varint data 0 = .ok (total, o1) →
      decodeEntriesLoop data o1 total = .ok (es, o2) →
      o2 ≠ data.length →
      from_bytes data =
        .error "Unexpected trailing bytes when decoding ledger entries") ∧
    (∀ (data : List Nat) (es : List PythonEntry) (b : Nat),
      from_bytes data = .ok es →
      from_bytes (data ++ [b]) =
        .error "Unexpected trailing bytes when decoding ledger entries") := by
  constructor
  · intro data total o1 es o2 h1 h2 hne
    exact from_bytes_trailing_error h1 h2 hne
  · intro data es b h
    obtain ⟨total, o1, h1, h2⟩ := from_bytes_ok_iff.mp h
    exact from_bytes_trailing_error (read_varint_ext h1)
      (decodeEntriesLoop_ext total o1 _ h2) (by simp)

/-- Witness for `c4_trailing_bytes`: the buffer `[0x00, 0x07]` declares zero
entries and leaves one unconsumed byte; the buffer `[0x00]` decodes to the
empty sequence, and appending a byte to it fails with the trailing-bytes
error. -/
theorem c4_trailing_bytes_witness :
    from_bytes [0x00, 0x07] =
      .error "Unexpected trailing bytes when decoding ledger entries" ∧
    from_bytes ([0x00] ++ [0x07]) =
      .error "Unexpected trailing bytes when decoding ledger entries" := by
  constructor
  · exact c4_trailing_bytes.1 [0x00, 0x07] 0 1 [] 1 rfl rfl (by decide)
  · exact c4_trailing_bytes.2 [0x00] [] 0x07 rfl

/-- **C3.** Truncation is always detected: if `data` decodes successfully to
a non-empty entry sequence, then decoding any strict prefix of `data` fails;
and concretely, the 42-byte buffer declaring 2 entries with bytes for only
one entry (the 83-byte valid two-entry encoding truncated at byte 42) fails
with the unexpected-end-of-buffer error, not a 1-entry partial result. -/
theorem c3_truncation_fails :
    (∀ (data : List Nat) (es : List PythonEntry) (k : Nat),
      from_bytes data = .ok es → es ≠ [] → k < data.length →
      ∃ m, from_bytes (data.take k) = .error m) ∧
    from_bytes (([0x02] ++ (List.replicate 8 0 ++ List.replicate 32 0 ++ [0x00]) ++
        (List.replicate 8 0 ++ List.replicate 32 0 ++ [0x00])).take 42) =
      .error "Unexpected end of buffer while decoding bytes" := by
  constructor
  · intro data es k h _ hk
    rcases h' : from_bytes (data.take k) with m | es'
    · exact ⟨m, rfl⟩
    · exfalso
      obtain ⟨t', o1', h1', h2'⟩ := from_bytes_ok_iff.mp h'
      have hlen : (data.take k).length = k := by
        rw [List.length_take]; omega
      have hjoin : data.take k ++ data.drop k = data := List.take_append_drop k data
      have h1'' : read_varint data 0 = .ok (t', o1') := by
        rw [← hjoin]; exact read_varint_ext h1'
      have h2'' : decodeEntriesLoop data o1' t' = .ok (es', k) := by
        rw [← hjoin]
        rw [hlen] at h2'
        exact decodeEntriesLoop_ext t' o1' _ h2'
      obtain ⟨total, o1, h1, h2⟩ := from_bytes_ok_iff.mp h
      rw [h1] at h1''
      obtain ⟨rfl, rfl⟩ : total = t' ∧ o1 = o1' := by
        simpa [Prod.ext_iff] using h1''
      rw [h2] at h2''
      have : data.length = k := by
        have h := (by simpa [Prod.ext_iff] using h2'' : es = es' ∧ data.length = k)
        exact h.2
      omega
  · show from_bytes [0x02, 0, 0, 0, 0, 0, 0, 0, 0,
      0, 0, 0, 0, 0, 0, 0, 0, 0, 0, 0, 0, 0, 0, 0, 0, 0, 0, 0, 0, 0, 0, 0,
      0, 0, 0, 0, 0, 0, 0, 0, 0, 0x00] =
        .error "Unexpected end of buffer while decoding bytes"
    rfl

/-- Witness for `c3_truncation_fails`: the 83-byte two-entry encoding
decodes successfully, and truncating it to its first 42 bytes makes decoding
fail. -/
theorem c3_truncation_fails_witness :
    from_bytes ([0x02] ++ (List.replicate 8 0 ++ List.replicate 32 0 ++ [0x00]) ++
        (List.replicate 8 0 ++ List.replicate 32 0 ++ [0x00])) =
      .ok [⟨0, List.replicate 32 0, []⟩, ⟨0, List.replicate 32 0, []⟩] ∧
    ∃ m, from_bytes (([0x02] ++ (List.replicate 8 0 ++ List.replicate 32 0 ++ [0x00]) ++
        (List.replicate 8 0 ++ List.replicate 32 0 ++ [0x00])).take 42) = .error m := by
  have hok : from_bytes ([0x02] ++ (List.replicate 8 0 ++ List.replicate 32 0 ++ [0x00]) ++
      (List.replicate 8 0 ++ List.replicate 32 0 ++ [0x00])) =
      .ok [⟨0, List.replicate 32 0, []⟩, ⟨0, List.replicate 32 0, []⟩] := by
    show from_bytes [0x02, 0, 0, 0, 0, 0, 0, 0, 0,
      0, 0, 0, 0, 0, 0, 0, 0, 0, 0, 0, 0, 0, 0, 0, 0, 0, 0, 0, 0, 0, 0, 0,
      0, 0, 0, 0, 0, 0, 0, 0, 0, 0x00,
      0, 0, 0, 0, 0, 0, 0, 0,
      0, 0, 0, 0, 0, 0, 0, 0, 0, 0, 0, 0, 0, 0, 0, 0, 0, 0, 0, 0, 0, 0, 0, 0,
      0, 0, 0, 0, 0, 0, 0, 0, 0x00] =
        .ok [⟨0, List.replicate 32 0, []⟩, ⟨0, List.replicate 32 0, []⟩]
    rfl
  exact ⟨hok, c3_truncation_fails.1 _ _ 42 hok (by simp) (by simp)⟩

lemma encodeVarint_length_pos (n : Nat) : 0 < (encodeVarint n).length := by
  rw [encodeVarint]
  split <;> simp

lemma encodeVarint_length_le : ∀ (L n : Nat), n < 128 ^ (L + 1) →
    (encodeVarint n).length ≤ L + 1 := by
  intro L
  induction L with
  | zero =>
    intro n hn
    rw [encodeVarint, if_pos (by norm_num at hn; omega)]
    simp
  | succ k ih =>
    intro n hn
    rw [encodeVarint]
    split
    · simp
    · simp only [List.length_cons]
      have : n / 128 < 128 ^ (k + 1) := by
        apply Nat.div_lt_of_lt_mul
        calc n < 128 ^ (k + 1 + 1) := hn
        _ = 128 * 128 ^ (k + 1) := by ring
      exact Nat.succ_le_succ (ih (n / 128) this)

lemma and_80_eq_zero_of_lt {n : Nat} (h : n < 128) : n &&& 0x80 = 0 := by
  have h128 : (0x80 : Nat) = 2 ^ 7 := by norm_num
  rw [h128, Nat.and_two_pow, Nat.testBit_lt_two_pow (by norm_num; omega)]
  rfl

lemma and_80_ne_zero {r : Nat} (hr : r < 128) : (r + 128) &&& 0x80 ≠ 0 := by
  have h128 : (0x80 : Nat) = 2 ^ 7 := by norm_num
  rw [h128, Nat.and_two_pow]
  have ht : (r + 2 ^ 7).testBit 7 = true := by
    rw [Nat.testBit_to_div_mod]
    have hdiv : (r + 2 ^ 7) / 2 ^ 7 = 1 :=
      Nat.div_eq_of_lt_le (by norm_num) (by norm_num; omega)
    rw [hdiv]
    norm_num
  rw [ht]
  norm_num

lemma and_7f_eq_mod (b : Nat) : b &&& 0x7F = b % 128 :=
  Nat.and_pow_two_sub_one_eq_mod b 7

lemma readVarintAux_encodeVarint (n : Nat) :
    ∀ (v s o : Nat) (rest : List Nat), v < 2 ^ s →
      s + 7 * ((encodeVarint n).length - 1) < 64 →
      readVarintAux (encodeVarint n ++ rest) o v s =
        .ok (v + 2 ^ s * n, o + (encodeVarint n).length) := by
  induction n using Nat.strong_induction_on with
  | _ n ih =>
    intro v s o rest hv hs
    by_cases hn : n < 128
    · rw [encodeVarint, if_pos hn] at hs ⊢
      simp only [List.cons_append, List.nil_append, readVarintAux]
      have hb : (n &&& 0x80 == 0) = true := by
        simp [and_80_eq_zero_of_lt hn]
      rw [if_pos hb]
      have : n &&& 0x7F = n := by
        rw [and_7f_eq_mod]; omega
      rw [this, or_shiftLeft_eq_add hv]
      simp
    · rw [encodeVarint, if_neg hn] at hs ⊢
      simp only [List.cons_append, readVarintAux]
      have hmod : n % 128 < 128 := Nat.mod_lt _ (by omega)
      have hb : ((n % 128 + 128) &&& 0x80 == 0) = false := by
        simp [and_80_ne_zero hmod]
      rw [hb]
      simp only [Bool.false_eq_true, if_false]
      have hlen1 : 0 < (encodeVarint (n / 128)).length :=
        encodeVarint_length_pos (n / 128)
      have hs7 : ¬ (s + 7 ≥ 64) := by
        simp only [List.length_cons] at hs
        omega
      rw [if_neg hs7]
      have h7f : (n % 128 + 128) &&& 0x7F = n % 128 := by
        rw [and_7f_eq_mod, Nat.add_mod_right, Nat.mod_mod_of_dvd _ (by norm_num)]
      rw [h7f, or_shiftLeft_eq_add hv]
      have hv' : v + 2 ^ s * (n % 128) < 2 ^ (s + 7) := by
        have hle : 2 ^ s * (n % 128) ≤ 2 ^ s * 127 :=
          Nat.mul_le_mul_left _ (by omega)
        have hpow : 2 ^ (s + 7) = 2 ^ s * 128 := by rw [pow_add]; norm_num
        omega
      have hs' : (s + 7) + 7 * ((encodeVarint (n / 128)).length - 1) < 64 := by
        simp only [List.length_cons] at hs
        omega
      rw [List.append_eq]
      rw [ih (n / 128) (Nat.div_lt_self (by omega) (by omega)) _ (s + 7) (o + 1)
        rest hv' hs']
      have harith : v + 2 ^ s * (n % 128) + 2 ^ (s + 7) * (n / 128) =
          v + 2 ^ s * n := by
        have hpow : 2 ^ (s + 7) = 2 ^ s * 128 := by rw [pow_add]; norm_num
        rw [hpow]
        have : n = 128 * (n / 128) + n % 128 := (Nat.div_add_mod n 128).symm
        calc v + 2 ^ s * (n % 128) + 2 ^ s * 128 * (n / 128)
            = v + 2 ^ s * (128 * (n / 128) + n % 128) := by ring
          _ = v + 2 ^ s * n := by rw [← this]
      rw [harith]
      have hofs : o + 1 + (encodeVarint (n / 128)).length =
          o + ((n % 128 + 128) :: encodeVarint (n / 128)).length := by
        simp only [List.length_cons]
        omega
      rw [hofs]

lemma read_varint_encodeVarint {pre rest : List Nat} {n : Nat} (hn : n < 2 ^ 64) :
    read_varint (pre ++ (encodeVarint n ++ rest)) pre.length =
      .ok (n, pre.length + (encodeVarint n).length) := by
  rw [read_varint, List.drop_left]
  have hlen : (encodeVarint n).length ≤ 10 := by
    apply encodeVarint_length_le 9
    calc n < 2 ^ 64 := hn
    _ ≤ 128 ^ 10 := by norm_num
  have := readVarintAux_encodeVarint n 0 0 pre.length rest (by norm_num)
    (by omega)
  simpa using this

lemma natToLeBytes_length (w : Nat) : ∀ n, (natToLeBytes w n).length = w := by
  induction w with
  | zero => intro n; rfl
  | succ k ih => intro n; simp [natToLeBytes, ih]

lemma intFromBytesLE_natToLeBytes (w : Nat) :
    ∀ n, intFromBytesLE (natToLeBytes w n) = n % 256 ^ w := by
  induction w with
  | zero => intro n; simp [natToLeBytes, intFromBytesLE, Nat.mod_one]
  | succ k ih =>
    intro n
    rw [natToLeBytes, intFromBytesLE, ih]
    rw [pow_succ, Nat.mul_comm (256 ^ k) 256, Nat.mod_mul]

lemma read_u64_encode {pre rest : List Nat} {n : Nat} (hn : n < 2 ^ 64) :
    read_u64 (pre ++ (natToLeBytes 8 n ++ rest)) pre.length =
      .ok (n, pre.length + 8) := by
  refine read_u64_ok_iff.mpr ⟨?_, ?_⟩
  · simp [natToLeBytes_length]
  · rw [List.drop_left, List.take_left' (natToLeBytes_length 8 n),
      intFromBytesLE_natToLeBytes]
    have h256 : (256 : Nat) ^ 8 = 2 ^ 64 := by norm_num
    rw [h256, Nat.mod_eq_of_lt hn]

lemma read_bytes_encode {pre tx rest : List Nat} :
    read_bytes (pre ++ (tx ++ rest)) pre.length tx.length =
      .ok (tx, pre.length + tx.length) := by
  refine read_bytes_ok_iff.mpr ⟨by simp, ?_⟩
  rw [List.drop_left, List.take_left]

lemma decodeTransactions_encode (txs : List (List Nat)) :
    ∀ (pre rest : List Nat), (∀ tx ∈ txs, ValidTx tx) →
      decodeTransactions
          (pre ++ ((txs.map encodeTransaction).flatten ++ rest)) pre.length
          txs.length =
        .ok (txs, pre.length + (txs.map encodeTransaction).flatten.length) := by
  induction txs with
  | nil =>
    intro pre rest _
    simp only [List.map_nil, List.flatten_nil, List.length_nil, List.nil_append]
    rfl
  | cons tx txs ih =>
    intro pre rest hvalid
    have htx : ValidTx tx := hvalid tx (by simp)
    have hbuf : pre ++ (((tx :: txs).map encodeTransaction).flatten ++ rest) =
        pre ++ (encodeVarint tx.length ++
          (tx ++ ((txs.map encodeTransaction).flatten ++ rest))) := by
      simp [encodeTransaction, List.append_assoc]
    rw [hbuf, List.length_cons]
    refine decodeTransactions_succ_ok_iff.mpr
      ⟨tx.length, pre.length + (encodeVarint tx.length).length,
        tx, pre.length + (encodeVarint tx.length).length + tx.length,
        txs, pre.length + (encodeVarint tx.length).length + tx.length +
          ((txs.map encodeTransaction).flatten).length, ?_, ?_, ?_, ?_⟩
    · exact read_varint_encodeVarint htx.1
    · have hpre : pre.length + (encodeVarint tx.length).length =
          (pre ++ encodeVarint tx.length).length := by simp
      have hbuf2 : pre ++ (encodeVarint tx.length ++
          (tx ++ ((txs.map encodeTransaction).flatten ++ rest))) =
          (pre ++ encodeVarint tx.length) ++
            (tx ++ ((txs.map encodeTransaction).flatten ++ rest)) := by
        simp [List.append_assoc]
      rw [hpre, hbuf2]
      exact read_bytes_encode
    · have hpre : pre.length + (encodeVarint tx.length).length + tx.length =
          (pre ++ encodeVarint tx.length ++ tx).length := by simp <;> omega
      have hbuf3 : pre ++ (encodeVarint tx.length ++
          (tx ++ ((txs.map encodeTransaction).flatten ++ rest))) =
          (pre ++ encodeVarint tx.length ++ tx) ++
            ((txs.map encodeTransaction).flatten ++ rest) := by
        simp [List.append_assoc]
      rw [hpre, hbuf3]
      exact ih (pre ++ encodeVarint tx.length ++ tx) rest
        (fun t ht => hvalid t (by simp [ht]))
    · simp only [Prod.mk.injEq, List.map_cons, List.flatten_cons,
        List.length_append, encodeTransaction]
      exact ⟨trivial, by omega⟩

lemma decodeEntryAt_encode {e : PythonEntry} (he : ValidEntry e)
    (pre rest : List Nat) :
    decodeEntryAt (pre ++ (encodeEntry e ++ rest)) pre.length =
      .ok (e, pre.length + (encodeEntry e).length) := by
  obtain ⟨hnh, hhash, -, htxc, htxs⟩ := he
  have hbuf : pre ++ (encodeEntry e ++ rest) =
      pre ++ (natToLeBytes 8 e.num_hashes ++
        (e.hash ++ (encodeVarint e.transactions.length ++
          ((e.transactions.map encodeTransaction).flatten ++ rest)))) := by
    simp [encodeEntry, List.append_assoc]
  rw [hbuf]
  refine decodeEntryAt_ok_iff.mpr
    ⟨e.num_hashes, pre.length + 8, e.hash, pre.length + 8 + 32,
      e.transactions.length,
      pre.length + 8 + 32 + (encodeVarint e.transactions.length).length,
      e.transactions,
      pre.length + 8 + 32 + (encodeVarint e.transactions.length).length +
        ((e.transactions.map encodeTransaction).flatten).length,
      ?_, ?_, ?_, ?_, ?_⟩
  · exact read_u64_encode hnh
  · have hpre : pre.length + 8 = (pre ++ natToLeBytes 8 e.num_hashes).length := by
      simp [natToLeBytes_length]
    have hbuf2 : pre ++ (natToLeBytes 8 e.num_hashes ++
        (e.hash ++ (encodeVarint e.transactions.length ++
          ((e.transactions.map encodeTransaction).flatten ++ rest)))) =
        (pre ++ natToLeBytes 8 e.num_hashes) ++
          (e.hash ++ (encodeVarint e.transactions.length ++
            ((e.transactions.map encodeTransaction).flatten ++ rest))) := by
      simp [List.append_assoc]
    have hread := @read_bytes_encode (pre ++ natToLeBytes 8 e.num_hashes)
      e.hash
      (encodeVarint e.transactions.length ++
        ((e.transactions.map encodeTransaction).flatten ++ rest))
    rw [hhash] at hread
    rw [hpre, hbuf2]
    have hofs : (pre ++ natToLeBytes 8 e.num_hashes).length + 32 =
        pre.length + 8 + 32 := by simp [natToLeBytes_length]
    rw [hofs] at hread
    rw [hpre] at hread
    exact hread
  · have hpre : pre.length + 8 + 32 =
        (pre ++ natToLeBytes 8 e.num_hashes ++ e.hash).length := by
      simp [natToLeBytes_length, hhash] <;> omega
    have hbuf3 : pre ++ (natToLeBytes 8 e.num_hashes ++
        (e.hash ++ (encodeVarint e.transactions.length ++
          ((e.transactions.map encodeTransaction).flatten ++ rest)))) =
        (pre ++ natToLeBytes 8 e.num_hashes ++ e.hash) ++
          (encodeVarint e.transactions.length ++
            ((e.transactions.map encodeTransaction).flatten ++ rest)) := by
      simp [List.append_assoc]
    have hread := @read_varint_encodeVarint
      (pre ++ natToLeBytes 8 e.num_hashes ++ e.hash)
      ((e.transactions.map encodeTransaction).flatten ++ rest)
      e.transactions.length htxc
    rw [hpre, hbuf3]
    exact hread
  · have hpre : pre.length + 8 + 32 + (encodeVarint e.transactions.length).length =
        (pre ++ natToLeBytes 8 e.num_hashes ++ e.hash ++
          encodeVarint e.transactions.length).length := by
      simp [natToLeBytes_length, hhash] <;> omega
    have hbuf4 : pre ++ (natToLeBytes 8 e.num_hashes ++
        (e.hash ++ (encodeVarint e.transactions.length ++
          ((e.transactions.map encodeTransaction).flatten ++ rest)))) =
        (pre ++ natToLeBytes 8 e.num_hashes ++ e.hash ++
          encodeVarint e.transactions.length) ++
          ((e.transactions.map encodeTransaction).flatten ++ rest) := by
      simp [List.append_assoc]
    have hread := decodeTransactions_encode e.transactions
      (pre ++ natToLeBytes 8 e.num_hashes ++ e.hash ++
        encodeVarint e.transactions.length) rest htxs
    rw [hpre, hbuf4]
    exact hread
  · have hentry : (⟨e.num_hashes, e.hash, e.transactions⟩ : PythonEntry) = e := by
      cases e; rfl
    rw [hentry]
    simp only [Prod.mk.injEq]
    refine ⟨trivial, ?_⟩
    simp only [encodeEntry, List.length_append, natToLeBytes_length, hhash]
    omega

lemma decodeEntriesLoop_encode (es : List PythonEntry) :
    ∀ (pre rest : List Nat), (∀ e ∈ es, ValidEntry e) →
      decodeEntriesLoop (pre ++ ((es.map encodeEntry).flatten ++ rest)) pre.length
          es.length =
        .ok (es, pre.length + (es.map encodeEntry).flatten.length) := by
  induction es with
  | nil =>
    intro pre rest _
    simp only [List.map_nil, List.flatten_nil, List.length_nil, List.nil_append]
    rfl
  | cons e es ih =>
    intro pre rest hvalid
    have hbuf : pre ++ (((e :: es).map encodeEntry).flatten ++ rest) =
        pre ++ (encodeEntry e ++ ((es.map encodeEntry).flatten ++ rest)) := by
      simp [List.append_assoc]
    rw [hbuf, List.length_cons]
    refine decodeEntriesLoop_succ_ok_iff.mpr
      ⟨e, pre.length + (encodeEntry e).length, es,
        pre.length + (encodeEntry e).length +
          ((es.map encodeEntry).flatten).length, ?_, ?_, ?_⟩
    · exact decodeEntryAt_encode (hvalid e (by simp)) pre _
    · have hpre : pre.length + (encodeEntry e).length =
          (pre ++ encodeEntry e).length := by simp
      have hbuf2 : pre ++ (encodeEntry e ++ ((es.map encodeEntry).flatten ++ rest)) =
          (pre ++ encodeEntry e) ++ ((es.map encodeEntry).flatten ++ rest) := by
        simp [List.append_assoc]
      rw [hpre, hbuf2]
      have := ih (pre ++ encodeEntry e) rest (fun x hx => hvalid x (by simp [hx]))
      simpa using this
    · simp only [Prod.mk.injEq, List.map_cons, List.flatten_cons, List.length_append]
      exact ⟨trivial, by omega⟩

/-- **C5.** Round-trip law: re-encoding any well-formed in-memory entry
sequence with the inverse of the §4.1 layout (entry-count varint; per entry
8-byte little-endian `num_hashes`, 32 hash bytes, transaction-count varint,
and per transaction a length varint followed by the transaction bytes) and
then decoding with `from_bytes` returns exactly that sequence. -/
theorem c5_encode_decode_roundtrip :
    ∀ es : List PythonEntry, ValidEntries es →
      from_bytes (encodeEntries es) = .ok es := by
  intro es ⟨hlen, hvalid⟩
  refine from_bytes_ok_iff.mpr
    ⟨es.length, (encodeVarint es.length).length, ?_, ?_⟩
  · have hbuf : encodeEntries es =
        [] ++ (encodeVarint es.length ++ (es.map encodeEntry).flatten) := by
      simp [encodeEntries]
    rw [hbuf]
    have := @read_varint_encodeVarint []
      ((es.map encodeEntry).flatten) es.length hlen
    simpa using this
  · have hbuf : encodeEntries es =
        encodeVarint es.length ++ ((es.map encodeEntry).flatten ++ []) := by
      simp [encodeEntries]
    rw [hbuf]
    have := decodeEntriesLoop_encode es (encodeVarint es.length) [] hvalid
    rw [this]
    have hlen2 : (encodeVarint es.length).length +
          ((es.map encodeEntry).flatten).length =
        (encodeVarint es.length ++ ((es.map encodeEntry).flatten ++ [])).length := by
      simp
    rw [hlen2]

/-- Witness for `c5_encode_decode_roundtrip`: a two-entry sequence with a
non-trivial hash, `num_hashes`, and a two-byte transaction round-trips. -/
theorem c5_encode_decode_roundtrip_witness :
    ValidEntries [⟨5, List.replicate 32 7, [[1, 2]]⟩,
      ⟨0, List.replicate 32 0, []⟩] ∧
    from_bytes (encodeEntries [⟨5, List.replicate 32 7, [[1, 2]]⟩,
        ⟨0, List.replicate 32 0, []⟩]) =
      .ok [⟨5, List.replicate 32 7, [[1, 2]]⟩, ⟨0, List.replicate 32 0, []⟩] := by
  have hv : ValidEntries [⟨5, List.replicate 32 7, [[1, 2]]⟩,
      ⟨0, List.replicate 32 0, []⟩] := by
    constructor
    · norm_num
    · intro e he
      rcases List.mem_cons.mp he with rfl | he
      · refine ⟨by norm_num, by simp, ?_, by norm_num, ?_⟩
        · intro b hb
          rw [List.eq_of_mem_replicate hb]
          norm_num
        · intro tx htx
          simp only [List.mem_singleton] at htx
          subst htx
          refine ⟨by norm_num, ?_⟩
          intro b hb
          simp only [List.mem_cons, List.not_mem_nil, or_false] at hb
          rcases hb with rfl | rfl <;> norm_num
      · rcases List.mem_cons.mp he with rfl | he
        · refine ⟨by norm_num, by simp, ?_, by norm_num, by simp⟩
          intro b hb
          rw [List.eq_of_mem_replicate hb]
          norm_num
        · exact absurd he (by simp)
  exact ⟨hv, c5_encode_decode_roundtrip _ hv⟩

/-- **C6.** The emission predicate returns `true` iff the filter is `None`
or empty, or some account key declared by the transaction's static account
list belongs to the filter set; in particular with a `None` or empty filter
every transaction is emitted. -/
theorem c6_should_print_transaction_iff :
    ∀ (transaction_account_keys : List Nat) (filter_accounts : Option (List Nat)),
      should_print_transaction transaction_account_keys filter_accounts = true ↔
        (filter_accounts = none ∨ filter_accounts = some [] ∨
          ∃ f, filter_accounts = some f ∧
            ∃ key ∈ transaction_account_keys, key ∈ f) := by
  intro keys fa
  cases fa with
  | none => simp [should_print_transaction]
  | some f =>
    by_cases hf : f = []
    · subst hf
      simp [should_print_transaction]
    · have hne : f.isEmpty = false := by
        cases f with
        | nil => exact absurd rfl hf
        | cons a l => rfl
      simp only [should_print_transaction, hne, Bool.false_eq_true, if_false,
        List.any_eq_true]
      constructor
      · rintro ⟨k, hk, hc⟩
        exact .inr (.inr ⟨f, rfl, k, hk, by simpa using hc⟩)
      · intro h
        rcases h with h | h | ⟨f', hf', k, hk, hkf⟩
        · exact absurd h (by simp)
        · rw [Option.some.injEq] at h
          exact absurd h hf
        · rw [Option.some.injEq] at hf'
          subst hf'
          exact ⟨k, hk, by simpa using hkf⟩

/-- **C7.** A decode failure is a local, per-message fault: if a message's
payload fails to decode, the receive loop reports exactly one
decode-error event carrying that message's slot and the error text, emits
nothing for that message, and the surrounding messages are processed
exactly as they would be on their own — the loop never terminates early on
a decode failure. -/
theorem c7_decode_failure_skips_message :
    ∀ (keysOf : List Nat → List Nat) (filter_accounts : Option (List Nat))
      (msgs1 msgs2 : List SlotEntry) (bad : SlotEntry) (e : String),
      from_bytes bad.entries = .error e →
      stream_entries_loop keysOf filter_accounts (msgs1 ++ bad :: msgs2) =
        stream_entries_loop keysOf filter_accounts msgs1 ++
          LoopEvent.decodeError bad.slot e ::
            stream_entries_loop keysOf filter_accounts msgs2 := by
  intro keysOf fa msgs1 msgs2 bad e h
  simp only [stream_entries_loop, List.map_append, List.map_cons,
    List.flatten_append, List.flatten_cons]
  congr 1
  rw [handleMessage, h]
  rfl

/-- Witness for `c7_decode_failure_skips_message`: a malformed middle
message (payload `[0x01]`, declaring one entry with no entry bytes) is
reported with its slot 7 and skipped, while the two well-formed empty
messages around it are still processed. -/
theorem c7_decode_failure_skips_message_witness :
    from_bytes ([0x01] : List Nat) =
      .error "Unexpected end of buffer while decoding bytes" ∧
    stream_entries_loop (fun _ => []) none
        ([⟨1, [0x00]⟩] ++ ⟨7, [0x01]⟩ :: [⟨2, [0x00]⟩]) =
      stream_entries_loop (fun _ => []) none [⟨1, [0x00]⟩] ++
        LoopEvent.decodeError 7 "Unexpected end of buffer while decoding bytes" ::
          stream_entries_loop (fun _ => []) none [⟨2, [0x00]⟩] := by
  refine ⟨rfl, ?_⟩
  exact c7_decode_failure_skips_message (fun _ => []) none
    [⟨1, [0x00]⟩] [⟨2, [0x00]⟩] ⟨7, [0x01]⟩
    "Unexpected end of buffer while decoding bytes" rfl

lemma goodHostChar_ranges {c : Char} (h : goodHostChar c = true) :
    (97 ≤ c.toNat ∧ c.toNat ≤ 122) ∨ (48 ≤ c.toNat ∧ c.toNat ≤ 57) ∨
      c.toNat = 46 ∨ c.toNat = 45 := by
  simp only [goodHostChar, Bool.or_eq_true, Bool.and_eq_true, decide_eq_true_eq,
    beq_iff_eq] at h
  rcases h with ((h | h) | rfl) | rfl
  · exact .inl h
  · exact .inr (.inl h)
  · exact .inr (.inr (.inl (by decide)))
  · exact .inr (.inr (.inr (by decide)))

lemma isAsciiDigit_ranges {c : Char} (h : isAsciiDigit c = true) :
    48 ≤ c.toNat ∧ c.toNat ≤ 57 := by
  simpa [isAsciiDigit] using h

lemma plainChar_of_goodHost {c : Char} (h : goodHostChar c = true) : PlainChar c := by
  have hr := goodHostChar_ranges h
  refine ⟨?_, ?_, ?_, ?_⟩ <;> omega

lemma plainChar_of_digit {c : Char} (h : isAsciiDigit c = true) : PlainChar c := by
  have hr := isAsciiDigit_ranges h
  refine ⟨?_, ?_, ?_, ?_⟩ <;> omega

lemma char_ne_of_toNat_ne {c x : Char} (h : c.toNat ≠ x.toNat) : c ≠ x := by
  intro hc
  exact h (by rw [hc])

lemma plainChar_authority_pred {c : Char} (h : PlainChar c) :
    (!(c == '/' || c == '?' || c == '#')) = true := by
  obtain ⟨h1, h2, h3, -⟩ := h
  have hne1 : c ≠ '/' := char_ne_of_toNat_ne (by intro hx; rw [hx] at h1; exact h1 rfl)
  have hne2 : c ≠ '?' := char_ne_of_toNat_ne (by intro hx; rw [hx] at h2; exact h2 rfl)
  have hne3 : c ≠ '#' := char_ne_of_toNat_ne (by intro hx; rw [hx] at h3; exact h3 rfl)
  simp [hne1, hne2, hne3]

lemma plainChar_ne_at {c : Char} (h : PlainChar c) : c ≠ '@' := by
  refine char_ne_of_toNat_ne ?_
  have h64 : ('@').toNat = 64 := by decide
  obtain ⟨-, -, -, h4⟩ := h
  omega

lemma goodHostChar_ne_colon {c : Char} (h : goodHostChar c = true) : c ≠ ':' := by
  refine char_ne_of_toNat_ne ?_
  have h58 : (':').toNat = 58 := by decide
  have hr := goodHostChar_ranges h
  omega

lemma isAsciiDigit_ne_colon {c : Char} (h : isAsciiDigit c = true) : c ≠ ':' := by
  refine char_ne_of_toNat_ne ?_
  have h58 : (':').toNat = 58 := by decide
  have hr := isAsciiDigit_ranges h
  omega

lemma goodHostChar_toLower {c : Char} (h : goodHostChar c = true) :
    c.toLower = c := by
  have hr := goodHostChar_ranges h
  have hneg : ¬ (Char.toNat c ≥ 65 ∧ Char.toNat c ≤ 90) := by omega
  simp only [Char.toLower]
  exact if_neg hneg

lemma map_toLower_good {host : List Char} (h : host.all goodHostChar = true) :
    host.map Char.toLower = host := by
  induction host with
  | nil => rfl
  | cons c rest ih =>
    simp only [List.all_cons, Bool.and_eq_true] at h
    simp [goodHostChar_toLower h.1, ih h.2]

lemma takeWhile_eq_self_of_all {p : Char → Bool} :
    ∀ l : List Char, (∀ c ∈ l, p c = true) → l.takeWhile p = l := by
  intro l
  induction l with
  | nil => intro _; rfl
  | cons c rest ih =>
    intro h
    rw [List.takeWhile_cons, h c (by simp)]
    simp [ih (fun x hx => h x (by simp [hx]))]

lemma takeWhile_append_stop {p : Char → Bool} {l1 l2 : List Char} {x : Char}
    (h1 : ∀ c ∈ l1, p c = true) (hx : p x = false) :
    (l1 ++ x :: l2).takeWhile p = l1 := by
  rw [List.takeWhile_append_of_pos h1, List.takeWhile_cons, hx]
  simp

lemma afterLastAt_eq_self {l : List Char} (h : '@' ∉ l) : afterLastAt l = l := by
  have haux : ∀ (m : List Char) (acc : List Char), '@' ∉ m →
      m.foldl (fun acc c => if c = '@' then [] else acc ++ [c]) acc = acc ++ m := by
    intro m
    induction m with
    | nil => intro acc _; simp
    | cons c rest ih =>
      intro acc hm
      have hc : c ≠ '@' := fun hc => hm (by simp [hc])
      simp only [List.foldl_cons, if_neg hc]
      rw [ih (acc ++ [c]) (fun hr => hm (by simp [hr]))]
      simp
  simpa using haux l [] h

lemma splitLastColon_no_colon {hp : List Char} (h : ':' ∉ hp) :
    splitLastColon hp = (hp, none) := by
  have hcont : hp.contains ':' = false := by
    simpa using h
  rw [splitLastColon, hcont]
  simp

lemma splitLastColon_with_port {host cs : List Char}
    (hhost : ':' ∉ host) (hcs : ':' ∉ cs) :
    splitLastColon (host ++ ':' :: cs) = (host, some cs) := by
  have hcont : (host ++ ':' :: cs).contains ':' = true := by simp
  rw [splitLastColon, hcont]
  simp only [if_true]
  have hrev : (host ++ ':' :: cs).reverse = cs.reverse ++ ':' :: host.reverse := by
    simp
  have hall : ∀ c ∈ cs.reverse, (!(c == ':')) = true := by
    intro c hc
    have hmem : c ∈ cs := List.mem_reverse.mp hc
    have hcne : c ≠ ':' := fun hh => hcs (hh ▸ hmem)
    simp [hcne]
  have hpost : ((host ++ ':' :: cs).reverse.takeWhile
      (fun c => !(c == ':'))).reverse = cs := by
    rw [hrev, takeWhile_append_stop hall (by simp)]
    simp
  rw [hpost]
  have hlen : (host ++ ':' :: cs).length - cs.length - 1 = host.length := by
    simp
    omega
  rw [hlen, List.take_left]

lemma splitSchemeSep_append {s r : List Char} (h : ':' ∉ s) :
    splitSchemeSep (s ++ ':' :: '/' :: '/' :: r) = some (s, r) := by
  induction s with
  | nil =>
    simp [splitSchemeSep]
  | cons c s' ih =>
    have hc : c ≠ ':' := fun hc => h (by simp [hc])
    rw [List.cons_append, splitSchemeSep, if_neg (fun hh => hc hh.1)]
    rw [ih (fun hr => h (by simp [hr]))]
    rfl

lemma splitSchemeSep_isSome_of_sep :
    ∀ (l s t : List Char), l = s ++ ':' :: '/' :: '/' :: t →
      (splitSchemeSep l).isSome = true := by
  intro l
  induction l with
  | nil =>
    intro s t h
    exact absurd h (by simp)
  | cons c rest ih =>
    intro s t h
    rw [splitSchemeSep]
    by_cases hcond : c = ':' ∧ rest.take 2 = ['/', '/']
    · rw [if_pos hcond]; rfl
    · rw [if_neg hcond]
      cases s with
      | nil =>
        simp only [List.nil_append, List.cons.injEq] at h
        exact absurd ⟨h.1, by rw [h.2]; rfl⟩ hcond
      | cons c' s' =>
        simp only [List.cons_append, List.cons.injEq] at h
        have hih := ih s' t h.2
        cases hsp : splitSchemeSep rest with
        | none => rw [hsp] at hih; exact Bool.noConfusion hih
        | some p => rfl

lemma splitSchemeSep_none_iff (l : List Char) :
    splitSchemeSep l = none ↔ ¬ ∃ s t, l = s ++ ':' :: '/' :: '/' :: t := by
  constructor
  · rintro hnone ⟨s, t, hst⟩
    have := splitSchemeSep_isSome_of_sep l s t hst
    rw [hnone] at this
    exact Bool.noConfusion this
  · intro hno
    induction l with
    | nil => rfl
    | cons c rest ih =>
      rw [splitSchemeSep]
      have hcond : ¬ (c = ':' ∧ rest.take 2 = ['/', '/']) := by
        rintro ⟨rfl, htake⟩
        refine hno ⟨[], rest.drop 2, ?_⟩
        simp only [List.nil_append, List.cons.injEq, true_and]
        have hsplit2 : rest = rest.take 2 ++ rest.drop 2 :=
          (List.take_append_drop 2 rest).symm
        rw [htake] at hsplit2
        exact hsplit2
      rw [if_neg hcond]
      rw [ih (fun ⟨s, t, hst⟩ => hno ⟨c :: s, t, by rw [hst]; rfl⟩)]
      rfl

lemma isValidScheme_no_colon {s : List Char} (h : isValidScheme s = true) :
    ':' ∉ s := by
  cases s with
  | nil => simp
  | cons c rest =>
    simp only [isValidScheme, Bool.and_eq_true] at h
    intro hmem
    rcases List.mem_cons.mp hmem with hc | hc
    · rw [← hc] at h
      exact absurd h.1 (by decide)
    · have := (List.all_eq_true.mp h.2) _ hc
      exact absurd this (by decide)

lemma authorityOf_eq_self_of_plain {tail : List Char}
    (h : ∀ c ∈ tail, PlainChar c) : authorityOf tail = tail :=
  takeWhile_eq_self_of_all tail (fun c hc => plainChar_authority_pred (h c hc))

lemma no_at_of_plain {tail : List Char} (h : ∀ c ∈ tail, PlainChar c) :
    '@' ∉ tail := by
  intro hmem
  exact plainChar_ne_at (h _ hmem) rfl

lemma plain_of_goodHost_list {host : List Char} (hgood : host.all goodHostChar = true) :
    ∀ c ∈ host, PlainChar c :=
  fun c hc => plainChar_of_goodHost ((List.all_eq_true.mp hgood) c hc)

lemma colon_plain : PlainChar ':' := by
  refine ⟨?_, ?_, ?_, ?_⟩ <;> decide

lemma no_colon_of_goodHost {host : List Char} (hgood : host.all goodHostChar = true) :
    ':' ∉ host := by
  intro hmem
  exact goodHostChar_ne_colon ((List.all_eq_true.mp hgood) ':' hmem) rfl

lemma isEmpty_false_of_ne_nil {host : List Char} (h : host ≠ []) :
    host.isEmpty = false := by
  cases host with
  | nil => exact absurd rfl h
  | cons c rest => rfl

lemma normalize_endpoint_uri_no_port (schemeCs host : List Char)
    (hvalid : isValidScheme schemeCs = true)
    (hne : host ≠ []) (hgood : host.all goodHostChar = true) :
    normalize_endpoint (String.mk (schemeCs ++ ':' :: '/' :: '/' :: host)) =
      if schemeCs.map Char.toLower = "http".toList ∨
          schemeCs.map Char.toLower = "https".toList then
        (if schemeCs.map Char.toLower = "https".toList then
          .ok (String.mk (host ++ ':' :: (toString (443 : Nat)).toList),
            some ChannelCredentials.ssl)
        else
          .ok (String.mk (host ++ ':' :: (toString (80 : Nat)).toList), none))
      else
        .error "Schema URI non supportato. Usa http:// o https:// oppure specifica direttamente host:porta." := by
  have hsplit : splitSchemeSep
      (String.mk (schemeCs ++ ':' :: '/' :: '/' :: host)).toList =
      some (schemeCs, host) :=
    splitSchemeSep_append (isValidScheme_no_colon hvalid)
  have hplain : ∀ c ∈ host, PlainChar c := plain_of_goodHost_list hgood
  have hauth : authorityOf host = host := authorityOf_eq_self_of_plain hplain
  have hat : afterLastAt host = host := afterLastAt_eq_self (no_at_of_plain hplain)
  have hsplit2 : splitLastColon host = (host, none) :=
    splitLastColon_no_colon (no_colon_of_goodHost hgood)
  have hmap : host.map Char.toLower = host := map_toLower_good hgood
  have hie : host.isEmpty = false := isEmpty_false_of_ne_nil hne
  unfold normalize_endpoint
  rw [hsplit]
  simp only [hvalid, if_true, hauth, hat, hsplit2, hmap, hie]
  split_ifs <;> first
    | rfl
    | tauto

lemma normalize_endpoint_uri_with_port (schemeCs host cs : List Char)
    (hvalid : isValidScheme schemeCs = true)
    (hne : host ≠ []) (hgood : host.all goodHostChar = true)
    (hcsne : cs ≠ []) (hcs : cs.all isAsciiDigit = true) :
    normalize_endpoint
        (String.mk (schemeCs ++ ':' :: '/' :: '/' :: (host ++ ':' :: cs))) =
      if schemeCs.map Char.toLower = "http".toList ∨
          schemeCs.map Char.toLower = "https".toList then
        (if schemeCs.map Char.toLower = "https".toList then
          .ok (String.mk (host ++ ':' :: (toString (digitsVal cs)).toList),
            some ChannelCredentials.ssl)
        else
          .ok (String.mk (host ++ ':' :: (toString (digitsVal cs)).toList), none))
      else
        .error "Schema URI non supportato. Usa http:// o https:// oppure specifica direttamente host:porta." := by
  have hsplit : splitSchemeSep
      (String.mk (schemeCs ++ ':' :: '/' :: '/' :: (host ++ ':' :: cs))).toList =
      some (schemeCs, host ++ ':' :: cs) :=
    splitSchemeSep_append (isValidScheme_no_colon hvalid)
  have hplainh : ∀ c ∈ host, PlainChar c := plain_of_goodHost_list hgood
  have hplaincs : ∀ c ∈ cs, PlainChar c :=
    fun c hc => plainChar_of_digit ((List.all_eq_true.mp hcs) c hc)
  have hplain : ∀ c ∈ host ++ ':' :: cs, PlainChar c := by
    intro c hc
    rcases List.mem_append.mp hc with hc | hc
    · exact hplainh c hc
    · rcases List.mem_cons.mp hc with rfl | hc
      · exact colon_plain
      · exact hplaincs c hc
  have hauth : authorityOf (host ++ ':' :: cs) = host ++ ':' :: cs :=
    authorityOf_eq_self_of_plain hplain
  have hat : afterLastAt (host ++ ':' :: cs) = host ++ ':' :: cs :=
    afterLastAt_eq_self (no_at_of_plain hplain)
  have hsplit2 : splitLastColon (host ++ ':' :: cs) = (host, some cs) :=
    splitLastColon_with_port (no_colon_of_goodHost hgood)
      (fun hmem => isAsciiDigit_ne_colon ((List.all_eq_true.mp hcs) ':' hmem) rfl)
  have hmap : host.map Char.toLower = host := map_toLower_good hgood
  have hie : host.isEmpty = false := isEmpty_false_of_ne_nil hne
  have hparse : parsePort (some cs) = .ok (some (digitsVal cs)) := by
    cases cs with
    | nil => exact absurd rfl hcsne
    | cons c rest =>
      simp only [parsePort, hcs, if_true]
  unfold normalize_endpoint
  rw [hsplit]
  simp only [hvalid, if_true, hauth, hat, hsplit2, hmap, hie, hparse]
  split_ifs <;> first
    | rfl
    | tauto

lemma normalize_endpoint_missing_host (schemeCs : List Char)
    (hvalid : isValidScheme schemeCs = true) :
    normalize_endpoint (String.mk (schemeCs ++ ':' :: '/' :: '/' :: [])) =
      .error "L'URI fornito non contiene un host valido. Esempio: https://example.com:443" := by
  have hsplit : splitSchemeSep
      (String.mk (schemeCs ++ ':' :: '/' :: '/' :: [])).toList =
      some (schemeCs, []) :=
    splitSchemeSep_append (isValidScheme_no_colon hvalid)
  unfold normalize_endpoint
  rw [hsplit]
  simp only [hvalid, if_true]
  have hauth : authorityOf [] = [] := rfl
  have hat : afterLastAt [] = [] := rfl
  have hsplit2 : splitLastColon [] = ([], none) := rfl
  simp only [hauth, hat, hsplit2]
  rfl

/-- **C9.** `_normalize_endpoint`: a string with no `://` separator passes
through unchanged with no credentials (and `splitSchemeSep` detecting the
separator is exactly the presence of a `://` decomposition); an https URI
with a well-formed host maps to `host:443` with TLS credentials; an http
URI maps to `host:80` with no credentials; an explicit port overrides the
default; a syntactically valid but unsupported scheme raises the
scheme-configuration `ValueError`; and a URI with no host raises the
missing-host `ValueError` — all before any connection is attempted, since
the function is pure. -/
theorem c9_normalize_endpoint_spec :
    (∀ l : List Char,
      splitSchemeSep l = none ↔ ¬ ∃ s t, l = s ++ ':' :: '/' :: '/' :: t) ∧
    (∀ raw : String, splitSchemeSep raw.toList = none →
      normalize_endpoint raw = .ok (raw, none)) ∧
    (∀ host : List Char, GoodHost host →
      normalize_endpoint (String.mk ("https".toList ++ ':' :: '/' :: '/' :: host)) =
        .ok (String.mk (host ++ ':' :: "443".toList), some ChannelCredentials.ssl)) ∧
    (∀ host : List Char, GoodHost host →
      normalize_endpoint (String.mk ("http".toList ++ ':' :: '/' :: '/' :: host)) =
        .ok (String.mk (host ++ ':' :: "80".toList), none)) ∧
    (∀ host cs : List Char, GoodHost host → cs ≠ [] → cs.all isAsciiDigit = true →
      normalize_endpoint
          (String.mk ("https".toList ++ ':' :: '/' :: '/' :: (host ++ ':' :: cs))) =
        .ok (String.mk (host ++ ':' :: (toString (digitsVal cs)).toList),
          some ChannelCredentials.ssl)) ∧
    (∀ schemeCs host : List Char, isValidScheme schemeCs = true →
      schemeCs.map Char.toLower ≠ "http".toList →
      schemeCs.map Char.toLower ≠ "https".toList →
      GoodHost host →
      normalize_endpoint (String.mk (schemeCs ++ ':' :: '/' :: '/' :: host)) =
        .error "Schema URI non supportato. Usa http:// o https:// oppure specifica direttamente host:porta.") ∧
    (∀ schemeCs : List Char, isValidScheme schemeCs = true →
      normalize_endpoint (String.mk (schemeCs ++ ':' :: '/' :: '/' :: [])) =
        .error "L'URI fornito non contiene un host valido. Esempio: https://example.com:443") := by
  refine ⟨splitSchemeSep_none_iff, ?_, ?_, ?_, ?_, ?_, ?_⟩
  · intro raw hnone
    unfold normalize_endpoint
    rw [hnone]
  · intro host ⟨hne, hgood⟩
    rw [normalize_endpoint_uri_no_port "https".toList host (by decide) hne hgood]
    rw [if_pos (by right; decide)]
    rw [if_pos (by decide)]
    rfl
  · intro host ⟨hne, hgood⟩
    rw [normalize_endpoint_uri_no_port "http".toList host (by decide) hne hgood]
    rw [if_pos (by left; decide)]
    rw [if_neg (by decide)]
    rfl
  · intro host cs ⟨hne, hgood⟩ hcsne hcs
    rw [normalize_endpoint_uri_with_port "https".toList host cs (by decide) hne
      hgood hcsne hcs]
    rw [if_pos (by right; decide)]
    rw [if_pos (by decide)]
  · intro schemeCs host hvalid hh1 hh2 ⟨hne, hgood⟩
    rw [normalize_endpoint_uri_no_port schemeCs host hvalid hne hgood]
    rw [if_neg (by rintro (h | h) <;> [exact hh1 h; exact hh2 h])]
  · intro schemeCs hvalid
    exact normalize_endpoint_missing_host schemeCs hvalid

/-- Witness for `c9_normalize_endpoint_spec`: concrete endpoints of each
kind. -/
theorem c9_normalize_endpoint_spec_witness :
    normalize_endpoint "127.0.0.1:9999" = .ok ("127.0.0.1:9999", none) ∧
    normalize_endpoint (String.mk ("https".toList ++ ':' :: '/' :: '/' ::
        "example.com".toList)) =
      .ok (String.mk ("example.com".toList ++ ':' :: "443".toList),
        some ChannelCredentials.ssl) ∧
    normalize_endpoint (String.mk ("http".toList ++ ':' :: '/' :: '/' ::
        "example.com".toList)) =
      .ok (String.mk ("example.com".toList ++ ':' :: "80".toList), none) ∧
    normalize_endpoint (String.mk ("https".toList ++ ':' :: '/' :: '/' ::
        ("example.com".toList ++ ':' :: "8443".toList))) =
      .ok (String.mk ("example.com".toList ++ ':' ::
        (toString (digitsVal "8443".toList)).toList), some ChannelCredentials.ssl) ∧
    normalize_endpoint (String.mk ("ftp".toList ++ ':' :: '/' :: '/' ::
        "example.com".toList)) =
      .error "Schema URI non supportato. Usa http:// o https:// oppure specifica direttamente host:porta." ∧
    normalize_endpoint (String.mk ("https".toList ++ ':' :: '/' :: '/' :: [])) =
      .error "L'URI fornito non contiene un host valido. Esempio: https://example.com:443" := by
  refine ⟨?_, ?_, ?_, ?_, ?_, ?_⟩
  · exact c9_normalize_endpoint_spec.2.1 "127.0.0.1:9999" (by decide)
  · exact c9_normalize_endpoint_spec.2.2.1 "example.com".toList
      ⟨by decide, by decide⟩
  · exact c9_normalize_endpoint_spec.2.2.2.1 "example.com".toList
      ⟨by decide, by decide⟩
  · exact c9_normalize_endpoint_spec.2.2.2.2.1 "example.com".toList "8443".toList
      ⟨by decide, by decide⟩ (by decide) (by decide)
  · exact c9_normalize_endpoint_spec.2.2.2.2.2.1 "ftp".toList "example.com".toList
      (by decide) (by decide) (by decide) ⟨by decide, by decide⟩
  · exact c9_normalize_endpoint_spec.2.2.2.2.2.2 "https".toList (by decide)

/-- **C10.** `from_bytes` is not injective: the one-byte buffer `[0x00]` and
the two-byte buffer `[0x80, 0x00]` (a non-minimal varint encoding of the
entry count 0, accepted by `_read_varint`) are distinct byte buffers that
both decode successfully to the same (empty) entry sequence. -/
theorem c10_from_bytes_not_injective :
    read_varint [0x80, 0x00] 0 = .ok (0, 2) ∧
    read_varint [0x00] 0 = .ok (0, 1) ∧
    from_bytes [0x00] = .ok [] ∧
    from_bytes [0x80, 0x00] = .ok [] ∧
    ([0x00] : List Nat) ≠ [0x80, 0x00] := by
  exact ⟨rfl, rfl, rfl, rfl, by decide⟩

end Shredstream
